import Mathlib

/-!
Shallow embedding of the kryvos arithmetic-circuit library
(src/groups/wiregroup.py and src/gates/*.py) together with proofs about
its gates.  Machine integers are modelled as `Nat` with explicit `% m`
reductions exactly where the Python code reduces; fallible operations
return `Except Err`.
-/

namespace Kryvos

/-- Error kinds raised by the library.  Python raises `ValueError` from
assertion gates and unsafe division, `KeyError` from missing dict keys,
and `TypeError`-like failures when `None` is used.  The bits-bound check
in `gt` / `assert_gt` also raises `ValueError`; it is given its own tag
here so that "bound-related" failures can be told apart from
witness-violation failures. -/
inductive Err where
  | invalid
  | bounds
  | keyMissing
  | noneValue
deriving Repr, DecidableEq

/-- Result of a fallible gate. -/
abbrev Res (α : Type) := Except Err α

/-- A wire (src/groups/wiregroup.py, class `Wire`): a stored integer
`value` (raw, not reduced — `Wire.create` stores what it is given) and
the `is_const` flag. -/
structure Wire where
  value : Nat
  is_const : Bool
deriving Repr, DecidableEq

/-- The two process-wide counters `Wire.n_mul` and `Wire.n_wires`. -/
structure Counters where
  n_mul : Nat
  n_wires : Nat
deriving Repr, DecidableEq

/-- `WireGroup.gen`: `Wire.create(x, modulus, is_const)` stores the raw
value. -/
def gen (v : Nat) (c : Bool) : Wire := ⟨v, c⟩

/-- `Wire.__neg__`: value `modulus - int(self)` (the Python code does
not reduce this further; for the stored values `≤ m` arising in this
library the Python integer result is the same natural number). -/
def wneg (m : Nat) (a : Wire) : Wire := ⟨m - a.value, a.is_const⟩

/-- `Wire.__add__` with a `Wire` operand: sum reduced `% m`; result
const iff both are. -/
def wadd (m : Nat) (a b : Wire) : Wire :=
  ⟨(a.value + b.value) % m, a.is_const && b.is_const⟩

/-- `Wire.__add__` with an `int` operand (also `__radd__`): the flag of
the wire operand is kept. -/
def waddInt (m : Nat) (a : Wire) (k : Nat) : Wire :=
  ⟨(a.value + k) % m, a.is_const⟩

/-- `Wire.__sub__` with a `Wire` operand: `self + other.__neg__()`. -/
def wsub (m : Nat) (a b : Wire) : Wire := wadd m a (wneg m b)

/-- `Wire.__sub__` with an `int` operand `k`: Python computes
`(value - k) % m`; over `Nat` this is `(value + (m - k % m)) % m`. -/
def wsubInt (m : Nat) (a : Wire) (k : Nat) : Wire :=
  ⟨(a.value + (m - k % m)) % m, a.is_const⟩

/-- `Wire.__mul__` with a `Wire` operand, value part only: product
reduced `% m`, const iff both are. -/
def wmul (m : Nat) (a b : Wire) : Wire :=
  ⟨a.value * b.value % m, a.is_const && b.is_const⟩

/-- `Wire.__mul__` with an `int` operand (also `__rmul__`): no counter
effect, flag kept. -/
def wmulInt (m : Nat) (a : Wire) (k : Nat) : Wire :=
  ⟨a.value * k % m, a.is_const⟩

/-- `Wire.__mul__` on two wires with the counter side effect: the
source increments `Wire.n_mul` and `Wire.n_wires` exactly when the
*other* (right) operand is a `Wire` whose `is_const` is false. -/
def wireMulWire (m : Nat) (a b : Wire) (s : Counters) : Wire × Counters :=
  if b.is_const then (wmul m a b, s)
  else (wmul m a b, ⟨s.n_mul + 1, s.n_wires + 1⟩)

/-- `Wire.__mul__` with an `int` operand, with (absent) counter side
effect: `isinstance(other, Wire)` is false, so nothing is counted. -/
def wireMulInt (m : Nat) (a : Wire) (k : Nat) (s : Counters) : Wire × Counters :=
  (wmulInt m a k, s)

/-- Python `pow(a, -1, m)`: the unique inverse of `a` modulo `m` in
`[0, m)` when it exists, an error otherwise.  Modelled extensionally by
brute-force search (the library only ever inverts modulo a prime
`m ≥ 2`, where this agrees with CPython). -/
def modInv (m a : Nat) : Option Nat :=
  (List.range m).find? (fun b => a * b % m = 1)

/-- `Wire.invert`, value part: `pow(self.value, -1, self.modulus)`,
keeping the flag. -/
def winvert (m : Nat) (a : Wire) : Res Wire :=
  match modInv m a.value with
  | some v => .ok ⟨v, a.is_const⟩
  | none => .error .invalid

/-- `Wire.invert` with the counter side effect: counters are bumped
(before the `pow` call) exactly when the wire is non-const. -/
def wireInvert (m : Nat) (a : Wire) (s : Counters) : Res (Wire × Counters) :=
  let s' := if a.is_const then s else ⟨s.n_mul + 1, s.n_wires + 1⟩
  match modInv m a.value with
  | some v => .ok (⟨v, a.is_const⟩, s')
  | none => .error .invalid

/-- Little-endian binary digits of `v` with recursion fuel (empty for
`0`); with fuel `≥ v` this is the digit list of `v`. -/
def lebits : Nat → Nat → List Nat
  | 0, _ => []
  | _ + 1, 0 => []
  | f + 1, v + 1 => ((v + 1) % 2) :: lebits f ((v + 1) / 2)

/-- Python `bin(v)[2:]` as a big-endian digit list (`"0"` for zero). -/
def pyBin (v : Nat) : List Nat :=
  if v = 0 then [0] else (lebits v v).reverse

/-- Python `str.zfill` on digit lists: left-pad with zeros to length
`L`. -/
def zfill (L : Nat) (ds : List Nat) : List Nat :=
  List.replicate (L - ds.length) 0 ++ ds

/-- `WireGroup.bit_length`: `len(bin(modulus)[2:])`. -/
def bitLength (m : Nat) : Nat := (pyBin m).length

/-- Python `sum` over a list of wires: starts from the integer `0`
(whose addition keeps the first wire's flag) and then chains
`Wire.__add__`.  Call sites never pass an empty list; for `[]` Python
would keep the integer `0`, rendered here as a const zero wire. -/
def pySum (m : Nat) : List Wire → Wire
  | [] => ⟨0, true⟩
  | w :: ws => ws.foldl (wadd m) (waddInt m w 0)

/-- `assert_equal` (src/gates/assertgates.py): compares
`int(sum(wires_one) * group.gen(1))` with `int(sum(wires_two))`. -/
def assert_equal (m : Nat) (ws1 ws2 : List Wire) : Res Unit :=
  if (wmul m (pySum m ws1) (gen 1 false)).value = (pySum m ws2).value
  then .ok () else .error .invalid

/-- `assert_bit`: fails unless `int(wire * (1 - wire)) = 0`. -/
def assert_bit (m : Nat) (w : Wire) : Res Unit :=
  if (wmul m w (waddInt m (wneg m w) 1)).value = 0 then .ok ()
  else .error .invalid

/-- The big-endian value `Σ ds[i] · 2^(len-1-i)` of a digit list
(Horner form); this is the "weighted-sum reconstruction" of the spec. -/
def beValue (ds : List Nat) : Nat := ds.foldl (fun acc d => 2 * acc + d) 0

/-- `split` (src/gates/bits.py): big-endian digits of the raw wire
value, left-padded with zeros to `bit_length` (never truncated); the
loop over `reversed(bits)` recomputes the untruncated value
`bit_values_sum`, asserted equal to the wire, and every digit wire must
pass `assert_bit`.  The `assert_equal(group, [bit_values_sum], [wire])`
call passes a plain integer on the left, which Python evaluates as
`gen(1) * bit_values_sum`. -/
def split (m : Nat) (w : Wire) (L : Nat) : Res (List Wire) := do
  let bits := zfill L (pyBin w.value)
  let bitSum := beValue bits
  let bitWires := bits.map (fun b => gen b false)
  let _ ← (if (wmulInt m (gen 1 false) bitSum).value = (waddInt m w 0).value
    then Except.ok () else Except.error Err.invalid)
  let _ ← bitWires.forM (fun bw => assert_bit m bw)
  pure bitWires

/-- `eq_zero` (src/gates/comparison.py). -/
def eq_zero (m : Nat) (w : Wire) : Res Wire := do
  let (helper, res) ←
    (if w.value = 0 then Except.ok ((gen 0 false), (gen 1 false))
     else
       match modInv m w.value with
       | some h => Except.ok ((gen h false), (gen 0 false))
       | none => Except.error Err.invalid)
  let _ ← assert_equal m [wmul m res w] [gen 0 false]
  let _ ← assert_equal m [wmul m w helper] [waddInt m (wneg m res) 1]
  pure res

/-- `eq`: `eq_zero(wire_one - wire_two)`. -/
def eq (m : Nat) (a b : Wire) : Res Wire := eq_zero m (wsub m a b)

/-- `eq_zero_multiple`: the same construction over the integer
`sum(wires).value`. -/
def eq_zero_multiple (m : Nat) (ws : List Wire) : Res Wire := do
  let sumValue := (pySum m ws).value
  let (helper, res) ←
    (if sumValue = 0 then Except.ok ((gen 0 false), (gen 1 false))
     else
       match modInv m sumValue with
       | some h => Except.ok ((gen h false), (gen 0 false))
       | none => Except.error Err.invalid)
  let _ ← assert_equal m [wmulInt m res sumValue] [gen 0 false]
  let _ ← assert_equal m [wmulInt m helper sumValue] [waddInt m (wneg m res) 1]
  pure res

/-- `eq_multiple`: `eq_zero_multiple(wires_one ++ map neg wires_two)`. -/
def eq_multiple (m : Nat) (ws1 ws2 : List Wire) : Res Wire :=
  eq_zero_multiple m (ws1 ++ ws2.map (wneg m))

/-- `gt` (src/gates/comparison.py): bound check, witness for the result
bit and for `u`, `split`, `assert_bit`, and the doubling assertion
`2·r·(a−b) = (a−b) + u + 1 − r`. -/
def gt (m : Nat) (a b : Wire) (bits : Nat) : Res Wire := do
  let _ ← (if bits > bitLength m / 2 then Except.error Err.bounds
           else Except.ok ())
  let diff := wsub m a b
  let vres := if a.value ≥ b.value then 1 else 0
  let vb := if a.value ≥ b.value then diff.value else m - diff.value - 1
  let res := gen vres false
  let wb := gen vb false
  let _ ← split m wb bits
  let _ ← assert_bit m res
  let _ ← assert_equal m [wmul m (wmulInt m res 2) diff]
    (wsub m (waddInt m (wadd m diff wb) 1) res :: [])
  pure res

/-- `lt`: `gt` with the operands swapped. -/
def lt (m : Nat) (a b : Wire) (bits : Nat) : Res Wire := gt m b a bits

/-- `assert_gt` (src/gates/assertgates.py): bound check, hard failure
when the first value is smaller, then `split` of the difference and the
assertion `2·(a−b) = (a−b) + d`. -/
def assert_gt (m : Nat) (a b : Wire) (bits : Nat) : Res Unit := do
  let _ ← (if bits > bitLength m / 2 then Except.error Err.bounds
           else Except.ok ())
  let diff := wsub m a b
  let _ ← (if a.value ≥ b.value then Except.ok () else Except.error Err.invalid)
  let wb := gen diff.value false
  let _ ← split m wb bits
  let _ ← assert_equal m [wmulInt m diff 2] [wadd m diff wb]
  pure ()

/-- `if_then_else` (src/gates/branching.py) with a wire `if_wire`:
`condition_wire * if_wire + (1 - condition_wire) * else_wire`. -/
def if_then_else (m : Nat) (c t e : Wire) : Wire :=
  wadd m (wmul m c t) (wmul m (waddInt m (wneg m c) 1) e)

/-- `if_then_else` where the `if_wire` argument is a plain integer
(the product `condition_wire * if_wire` is then a wire-by-int one). -/
def if_then_else_int (m : Nat) (c : Wire) (t : Nat) (e : Wire) : Wire :=
  wadd m (wmulInt m c t) (wmul m (waddInt m (wneg m c) 1) e)

/-- `if_then_set_zero`: `(1 - condition_wire) * input_wire`. -/
def if_then_set_zero (m : Nat) (c x : Wire) : Wire :=
  wmul m (waddInt m (wneg m c) 1) x

/-- `division` (src/gates/arithmetic.py): unsafe division, ValueError
when the divisor value is zero, else `dividend * divisor.invert()`. -/
def division (m : Nat) (dividend divisor : Wire) : Res Wire := do
  let _ ← (if divisor.value = 0 then Except.error Err.invalid
           else Except.ok ())
  let inv ← winvert m divisor
  pure (wmul m dividend inv)

/-- `division_safe`: replace a zero divisor by `1` via the zero
indicator, then divide. -/
def division_safe (m : Nat) (dividend divisor : Wire) : Res Wire := do
  let cond ← eq_zero m divisor
  let divisorSafe := if_then_else_int m cond 1 divisor
  division m dividend divisorSafe

/-- `division_safe_multiple`: one shared safe divisor, many
dividends. -/
def division_safe_multiple (m : Nat) (dividends : List Wire) (divisor : Wire) :
    Res (List Wire) := do
  let cond ← eq_zero m divisor
  let divisorSafe := if_then_else_int m cond 1 divisor
  dividends.mapM (fun d => division m d divisorSafe)

/-- `and_gate_two_inputs` (src/gates/bits.py): the product; the
non-binary-input warnings are log-only and do not affect the result. -/
def and_gate_two_inputs (m : Nat) (a b : Wire) : Wire := wmul m a b

/-- `and_gate_multiple_inputs`: `eq_multiple(wires, [gen(len(wires),
is_const=True)])`. -/
def and_gate_multiple_inputs (m : Nat) (ws : List Wire) : Res Wire :=
  eq_multiple m ws [gen ws.length true]

/-- `and_gate`: dispatch on the list length. -/
def and_gate (m : Nat) (ws : List Wire) : Res Wire :=
  if h : ws.length = 2 then
    .ok (and_gate_two_inputs m (ws.get ⟨0, by omega⟩) (ws.get ⟨1, by omega⟩))
  else and_gate_multiple_inputs m ws

/-- `or_gate_two_inputs`: `a + b - a·b`. -/
def or_gate_two_inputs (m : Nat) (a b : Wire) : Wire :=
  wsub m (wadd m a b) (wmul m a b)

/-- `or_gate_multiple_inputs`: `1 - eq_zero_multiple(wires)` (the
too-many-inputs warning is log-only). -/
def or_gate_multiple_inputs (m : Nat) (ws : List Wire) : Res Wire := do
  let z ← eq_zero_multiple m ws
  pure (waddInt m (wneg m z) 1)

/-- `or_gate`: dispatch on the list length. -/
def or_gate (m : Nat) (ws : List Wire) : Res Wire :=
  if h : ws.length = 2 then
    .ok (or_gate_two_inputs m (ws.get ⟨0, by omega⟩) (ws.get ⟨1, by omega⟩))
  else or_gate_multiple_inputs m ws

/-- `minimum` (src/gates/listgates.py): the literal minimum of the raw
values is witnessed (`min()` of an empty sequence is a ValueError),
then per element an `eq` indicator and an `assert_gt` range check. -/
def minimum (m : Nat) (ws : List Wire) (bits : Nat) : Res (List Wire) := do
  let minVal ←
    (match (ws.map Wire.value).min? with
     | some v => Except.ok v
     | none => Except.error Err.invalid)
  let minWire := gen minVal false
  ws.mapM (fun w => do
    let ind ← eq m w minWire
    let _ ← assert_gt m w minWire bits
    pure ind)

/-- `find_first_indicator`: running `done` accumulator; each output is
`wire * (1 - done)` and is added into `done`. -/
def find_first_indicator (m : Nat) (ws : List Wire) : List Wire :=
  (ws.foldl (fun st w =>
      let r := wmul m w (waddInt m (wneg m st.1) 1)
      (wadd m st.1 r, r :: st.2))
    ((gen 0 false), ([] : List Wire))).2.reverse

/-- The x/z pair of a homogeneous point whose `y` slot is `None`
(ladder state, `xadd`/`xdbl` results). -/
structure XZ where
  x : Wire
  z : Wire
deriving Repr, DecidableEq

/-- A homogeneous point with all three coordinate wires present. -/
structure HPoint where
  x : Wire
  y : Wire
  z : Wire
deriving Repr, DecidableEq

/-- Both coordinates of an x/z pair are reduced below the modulus. -/
def XZwf (m : Nat) (q : XZ) : Prop := q.x.value < m ∧ q.z.value < m

/-- `xadd` (src/gates/ecsmontgomery.py), values only. -/
def xadd (m : Nat) (p q pm : XZ) : XZ :=
  let v0 := wadd m p.x p.z
  let v1 := wsub m q.x q.z
  let v1 := wmul m v1 v0
  let v0 := wsub m p.x p.z
  let v2 := wadd m q.x q.z
  let v2 := wmul m v2 v0
  let v3 := wadd m v1 v2
  let v3 := wmul m v3 v3
  let v4 := wsub m v1 v2
  let v4 := wmul m v4 v4
  let xp := wmul m pm.z v3
  let zp := wmul m pm.x v4
  ⟨xp, zp⟩

/-- `xadd` with the `Wire.n_mul`/`Wire.n_wires` side effects of its six
wire-by-wire products. -/
def xaddS (m : Nat) (p q pm : XZ) (s : Counters) : XZ × Counters :=
  let v0 := wadd m p.x p.z
  let v1 := wsub m q.x q.z
  let (v1, s) := wireMulWire m v1 v0 s
  let v0 := wsub m p.x p.z
  let v2 := wadd m q.x q.z
  let (v2, s) := wireMulWire m v2 v0 s
  let v3 := wadd m v1 v2
  let (v3, s) := wireMulWire m v3 v3 s
  let v4 := wsub m v1 v2
  let (v4, s) := wireMulWire m v4 v4 s
  let (xp, s) := wireMulWire m pm.z v3 s
  let (zp, s) := wireMulWire m pm.x v4 s
  (⟨xp, zp⟩, s)

/-- `xdbl`, values only.  `(A + 2) / 4` runs `Wire.__truediv__` with an
integer operand: the inverse is the plain integer `pow(4, -1, m)` and
the final product is a wire-by-int one. -/
def xdbl (m : Nat) (p : XZ) (A : Wire) : Res XZ :=
  let v1 := wadd m p.x p.z
  let v1 := wmul m v1 v1
  let v2 := wsub m p.x p.z
  let v2 := wmul m v2 v2
  let xd := wmul m v1 v2
  let v1 := wsub m v1 v2
  match modInv m 4 with
  | none => .error .invalid
  | some i4 =>
    let v3 := wmul m (wmulInt m (waddInt m A 2) i4) v1
    let v3 := wadd m v3 v2
    let zd := wmul m v1 v3
    .ok ⟨xd, zd⟩

/-- `xdbl` with counter side effects: five wire-by-wire products; the
`(A + 2) / 4` scaling is a wire-by-int product and is free. -/
def xdblS (m : Nat) (p : XZ) (A : Wire) (s : Counters) : Res (XZ × Counters) :=
  let v1 := wadd m p.x p.z
  let (v1, s) := wireMulWire m v1 v1 s
  let v2 := wsub m p.x p.z
  let (v2, s) := wireMulWire m v2 v2 s
  let (xd, s) := wireMulWire m v1 v2 s
  let v1 := wsub m v1 v2
  match modInv m 4 with
  | none => .error .invalid
  | some i4 =>
    let (v3, s) := wireMulWire m (wmulInt m (waddInt m A 2) i4) v1 s
    let v3 := wadd m v3 v2
    let (zd, s) := wireMulWire m v1 v3 s
    .ok (⟨xd, zd⟩, s)

/-- One iteration of the ladder loop body. -/
def ladderStep (m : Nat) (p : XZ) (A : Wire) (st : XZ × XZ) (i : Wire) :
    Res (XZ × XZ) := do
  let (r0, r1) := st
  let padd := xadd m r1 r0 p
  let r00 ← xdbl m r0 A
  let r11 ← xdbl m r1 A
  let ipaddx := wmul m i padd.x
  let ipaddz := wmul m i padd.z
  let r0x := wadd m ipaddx (wmul m (waddInt m (wneg m i) 1) r00.x)
  let r0z := wadd m ipaddz (wmul m (waddInt m (wneg m i) 1) r00.z)
  let r1x := wsub m (wadd m (wmul m i r11.x) padd.x) ipaddx
  let r1z := wsub m (wadd m (wmul m i r11.z) padd.z) ipaddz
  pure (⟨r0x, r0z⟩, ⟨r1x, r1z⟩)

/-- `ladder`: state `(R0, R1) = (P, 2P)`, then the loop body over
`k_bits[1:]`. -/
def ladder (m : Nat) (kbits : List Wire) (p : XZ) (A : Wire) :
    Res (XZ × XZ) := do
  let r0 := p
  let r1 ← xdbl m p A
  kbits.tail.foldlM (ladderStep m p A) (r0, r1)

/-- `okeya_sakurai_y_recovery`: the v1..v4 formula (the affine `p`
argument contributes only `p.x` and `p.y`). -/
def okeya_sakurai_y_recovery (m : Nat) (A B px py : Wire) (q pq : XZ) :
    HPoint :=
  let v1 := wmul m px q.z
  let v2 := wadd m q.x v1
  let v3 := wsub m q.x v1
  let v3 := wmul m v3 v3
  let v3 := wmul m v3 pq.x
  let v1 := wmul m (wmulInt m A 2) q.z
  let v2 := wadd m v2 v1
  let v4 := wmul m px q.x
  let v4 := wadd m v4 q.z
  let v2 := wmul m v2 v4
  let v1 := wmul m v1 q.z
  let v2 := wsub m v2 v1
  let v2 := wmul m v2 pq.z
  let y := wsub m v2 v3
  let v1 := wmul m (wmulInt m B 2) py
  let v1 := wmul m v1 q.z
  let v1 := wmul m v1 pq.z
  let x := wmul m v1 q.x
  let z := wmul m v1 q.z
  ⟨x, y, z⟩

/-- `y_recovery`: algebraic recovery followed by the point-at-infinity
and `[k]P = −P` overrides. -/
def y_recovery (m : Nat) (A B px py : Wire) (q pq : XZ) : Res HPoint := do
  let qrec := okeya_sakurai_y_recovery m A B px py q pq
  let cond ← eq_zero m q.z
  let qx := if_then_set_zero m cond qrec.x
  let qy := if_then_else_int m cond 1 qrec.y
  let qz := if_then_set_zero m cond qrec.z
  let c1 ← eq_zero m pq.z
  let dsafe ← division_safe m q.x q.z
  let c2 ← eq m px dsafe
  let condMinusP ← and_gate m [c1, c2]
  let qx := if_then_else m condMinusP px qx
  let qy := if_then_else m condMinusP (wneg m py) qy
  let qz := if_then_else_int m condMinusP 1 qz
  pure ⟨qx, qy, qz⟩

/-- `convert_homogeneous_to_affine_coordinates`: safe division of `x`
and `y` by `z`, zero indicator for `z`.  The source also computes
`if_then_set_zero(indicator_infty, p.x)` and
`if_then_else(indicator_infty, 1, p.y)` into locals `x`, `y` but then
returns the raw quotients, so those two wires are dead. -/
def convert_homogeneous_to_affine_coordinates (m : Nat) (p : HPoint) :
    Res HPoint := do
  let qs ← division_safe_multiple m [p.x, p.y] p.z
  let ind ← eq_zero m p.z
  match qs with
  | [xa, ya] => pure ⟨xa, ya, waddInt m (wneg m ind) 1⟩
  | _ => .error .noneValue

/-- `exponent_homogeneous_point_bit_exponent`: ladder, y-recovery,
point-at-infinity override, then the 2-torsion "zero point" overrides
driven by the parity bit `exponent_bits[-1]`. -/
def exponent_homogeneous_point_bit_exponent (m : Nat) (A B : Wire)
    (p : HPoint) (ebits : List Wire) : Res HPoint := do
  let (pe0, pe1) ← ladder m ebits ⟨p.x, p.z⟩ A
  let pe ← y_recovery m A B p.x p.y pe0 pe1
  let indInf ← eq_zero m pe0.z
  let pex := if_then_set_zero m indInf pe.x
  let pey := if_then_else_int m indInf 1 pe.y
  let pez := if_then_set_zero m indInf pe.z
  let ezx ← eq_zero m p.x
  let ezy ← eq_zero m p.y
  let ezz ← eq_zero m p.z
  let indZero ← and_gate m [ezx, ezy, waddInt m (wneg m ezz) 1]
  let lastBit ← (match ebits.getLast? with
    | some b => Except.ok b
    | none => Except.error Err.noneValue)
  let indOdd ← eq_zero m (wsubInt m lastBit 1)
  let zo := wmul m indZero indOdd
  let ze := wmul m indZero (waddInt m (wneg m indOdd) 1)
  let pex := if_then_else_int m zo 0 pex
  let pey := if_then_else_int m zo 0 pey
  let pez := if_then_else_int m zo 1 pez
  let pex := if_then_else_int m ze 0 pex
  let pey := if_then_else_int m ze 1 pey
  let pez := if_then_else_int m ze 0 pez
  pure ⟨pex, pey, pez⟩

/-- `exponent_homogeneous_point`: split the exponent with the group's
bit length, then the bit-exponent variant. -/
def exponent_homogeneous_point (m : Nat) (A B : Wire) (p : HPoint)
    (e : Wire) : Res HPoint := do
  let ebits ← split m e (bitLength m)
  exponent_homogeneous_point_bit_exponent m A B p ebits

/-- All arrangements (ordered selections without repetition) of `i`
elements of `0..n-1`, as produced by `itertools.permutations(range(n),
i)` (the per-length order differs from CPython's lexicographic one, but
the library's observable behaviour only depends on the keys being
grouped by decreasing length, which is preserved). -/
def arrangements (n i : Nat) : List (List Nat) :=
  (List.sublistsLen i (List.range n)).flatMap List.permutations'

/-- `IRVBallotManager.init_mapping` key enumeration: lengths
`n_choices+1` down to `1`, then the empty ordering.  Keys are modelled
as the candidate-index lists themselves; the Python `"-"`-joined
decimal strings are in bijection with them. -/
def irvKeys (n : Nat) : List (List Nat) :=
  (((List.range (n + 1)).reverse.map (· + 1)).flatMap
    (fun i => arrangements n i)) ++ [[]]

/-- A ballot-manager state: the ordered association of keys to count
wires. -/
abbrev Mgr := List (List Nat × Wire)

/-- Dictionary lookup. -/
def mgrLookup : Mgr → List Nat → Option Wire
  | [], _ => none
  | kv :: rest, k => if kv.1 = k then some kv.2 else mgrLookup rest k

/-- Replace the value stored under key `k` (no-op when absent). -/
def mgrUpdate (mgr : Mgr) (k : List Nat) (f : Wire → Wire) : Mgr :=
  mgr.map (fun kv => if kv.1 = k then (kv.1, f kv.2) else kv)

/-- `IRVBallotManager.create`: every key maps to `group.gen(0)`. -/
def initManager (n : Nat) : Mgr :=
  (irvKeys n).map (fun k => (k, gen 0 false))

/-- `add_votes_for_ordering`: `self.mapping[ordering_str] += n_votes`;
a missing key is a `KeyError`. -/
def add_votes_for_ordering (m : Nat) (mgr : Mgr) (o : List Nat)
    (nv : Wire) : Res Mgr :=
  match mgrLookup mgr o with
  | none => .error .keyMissing
  | some _ => .ok (mgrUpdate mgr o (fun cur => wadd m cur nv))

/-- `get_n_ballots_with_first_choice`: `None` until the first matching
key, then chained wire addition over keys in insertion order. -/
def get_n_ballots_with_first_choice (m : Nat) (mgr : Mgr) (c : Nat) :
    Option Wire :=
  mgr.foldl (fun acc kv =>
    match kv.1 with
    | [] => acc
    | h :: _ =>
      if h = c then
        match acc with
        | none => some kv.2
        | some w => some (wadd m w kv.2)
      else acc) none

/-- `get_votes_per_choice` (a `None` entry would crash the caller, so
it is surfaced as an error here). -/
def get_votes_per_choice (m n : Nat) (mgr : Mgr) : Res (List Wire) :=
  (List.range n).mapM (fun c =>
    match get_n_ballots_with_first_choice m mgr c with
    | some w => Except.ok w
    | none => Except.error Err.noneValue)

/-- Inner loop of `update_votes_on_elimination` for one stored key:
`mapping[key] += inds_elim[c] * mapping[c :: key]` for every choice `c`
not in `key` whose extended ordering is a key. -/
def updateForKey (m n : Nat) (inds : List Wire) (mg : Mgr) (k : List Nat) :
    Mgr :=
  (List.range n).foldl (fun mg c =>
    if c ∈ k then mg
    else
      match mgrLookup mg (c :: k) with
      | none => mg
      | some prev =>
        mgrUpdate mg k
          (fun cur => wadd m cur (wmul m (inds.getD c (gen 0 false)) prev)))
    mg

/-- `update_votes_on_elimination`: a single in-place pass over the keys
in insertion order, each key reading the *current* values of the longer
keys. -/
def update_votes_on_elimination (m n : Nat) (mgr : Mgr)
    (inds : List Wire) : Mgr :=
  (mgr.map Prod.fst).foldl (updateForKey m n inds) mgr

/-- `ChoiceEliminator.compute_min`: mask with
`n_votes * (1 - elim) - elim`, then `minimum`. -/
def compute_min (m bits : Nat) (indElim votes : List Wire) :
    Res (List Wire) :=
  minimum m
    (List.zipWith
      (fun nv e => wsub m (wmul m nv (waddInt m (wneg m e) 1)) e)
      votes indElim)
    bits

/-- `EliminateFirstPossibilityEliminator.eliminate_choice`:
`compute_min` then `find_first_indicator`. -/
def eliminate_first_possibility (m bits : Nat) (indElim votes : List Wire) :
    Res (List Wire) := do
  let indMin ← compute_min m bits indElim votes
  pure (find_first_indicator m indMin)

/-- `IRV.evaluate_round` with the first-possibility eliminator: votes,
elimination indicator, indicator accumulation, ballot redistribution. -/
def evaluate_round (m n bits : Nat) (st : Mgr × List Wire) :
    Res (Mgr × List Wire) := do
  let votes ← get_votes_per_choice m n st.1
  let inds ← eliminate_first_possibility m bits st.2 votes
  let elim := List.zipWith (wadd m) st.2 inds
  let mgr := update_votes_on_elimination m n st.1 inds
  pure (mgr, elim)

/-- The `for _ in range(n_rounds)` loop of `evaluate_election`. -/
def electionLoop (m n bits : Nat) : Nat → Mgr × List Wire →
    Res (Mgr × List Wire)
  | 0, st => .ok st
  | r + 1, st => do
    let st ← evaluate_round m n bits st
    electionLoop m n bits r st

/-- `IRV.evaluate_election` (first-possibility eliminator): zeroed
indicator list, `n_rounds` rounds, returns the indicator list. -/
def evaluate_election (m n bits : Nat) (mgr : Mgr) (nRounds : Nat) :
    Res (List Wire) := do
  let st ← electionLoop m n bits nRounds (mgr, List.replicate n (gen 0 false))
  pure st.2

/-- Order-explicit form of the `find_first_indicator` loop: the output
list built front-to-back with the running `done` wire. -/
def ffiAux (m : Nat) (done : Wire) : List Wire → List Wire
  | [] => []
  | w :: ws =>
    let r := wmul m w (waddInt m (wneg m done) 1)
    r :: ffiAux m (wadd m done r) ws

/-- Whether a stored ballot key is nonempty and headed by a choice not
yet eliminated according to the indicator list. -/
def liveKey (elim : List Wire) : List Nat → Bool
  | [] => false
  | c :: _ => (elim.getD c (gen 0 false)).value == 0

/-- The total number of (redistributed) ballots currently stored under
live keys of a ballot manager. -/
def liveSum (elim : List Wire) (mgr : Mgr) : Nat :=
  (mgr.map (fun kv => if liveKey elim kv.1 then kv.2.value else 0)).sum

/-- The value stored under a key, `0` when the key is absent. -/
def mgrVal (mgr : Mgr) (k : List Nat) : Nat :=
  ((mgrLookup mgr k).map Wire.value).getD 0

/-- Whether a stored key is nonempty and headed by choice `c`. -/
def headIs (c : Nat) : List Nat → Bool
  | [] => false
  | h :: _ => h == c

/-- The number of ballots whose stored ordering currently puts choice
`c` first. -/
def headVotes (mgr : Mgr) (c : Nat) : Nat :=
  (mgr.map (fun kv => if headIs c kv.1 then kv.2.value else 0)).sum

/-- The invariant maintained by one IRV round: the key set is the
`init_mapping` one, stored counts are reduced, the elimination
indicator list has one entry per choice, all of them bits summing to
the round number, and at most `T` ballots sit under live keys. -/
def IRVInv (m n T r : Nat) (st : Mgr × List Wire) : Prop :=
  st.1.map Prod.fst = irvKeys n ∧
  (∀ kv ∈ st.1, kv.2.value < m) ∧
  st.2.length = n ∧
  (∀ w ∈ st.2, w.value ≤ 1) ∧
  (st.2.map Wire.value).sum = r ∧
  liveSum st.2 st.1 ≤ T

/-! ### Basic facts about the wire arithmetic -/

theorem wadd_value (m : Nat) (a b : Wire) :
    (wadd m a b).value = (a.value + b.value) % m := rfl

theorem foldl_wadd_value (m : Nat) (ws : List Wire) (acc : Wire)
    (h : acc.value % m = acc.value) :
    (ws.foldl (wadd m) acc).value =
      (acc.value + (ws.map Wire.value).sum) % m := by
  induction ws generalizing acc with
  | nil => simpa using h.symm
  | cons b bs ih =>
    have hmod : ((a : Nat) → (a % m) % m = a % m) := fun a => Nat.mod_mod_of_dvd _ dvd_rfl
    rw [List.foldl_cons, ih (wadd m acc b) (hmod _)]
    simp only [wadd_value, List.map_cons, List.sum_cons, Nat.mod_add_mod]
    ring_nf

theorem pySum_value (m : Nat) (ws : List Wire) :
    (pySum m ws).value = (ws.map Wire.value).sum % m := by
  cases ws with
  | nil => simp [pySum]
  | cons w ws =>
    have : (waddInt m w 0).value % m = (waddInt m w 0).value :=
      Nat.mod_mod_of_dvd _ dvd_rfl
    rw [pySum, foldl_wadd_value m ws _ this]
    simp only [waddInt, List.map_cons, List.sum_cons, Nat.mod_add_mod]
    ring_nf

theorem assert_equal_iff (m : Nat) (ws1 ws2 : List Wire) :
    assert_equal m ws1 ws2 = .ok () ↔
      (ws1.map Wire.value).sum % m = (ws2.map Wire.value).sum % m := by
  have h1 : (wmul m (pySum m ws1) (gen 1 false)).value =
      (ws1.map Wire.value).sum % m := by
    simp [wmul, gen, pySum_value, Nat.mod_mod_of_dvd]
  rw [assert_equal, h1, pySum_value]
  constructor
  · intro h
    by_contra hne
    simp [hne] at h
  · intro h
    simp [h]

theorem assert_equal_ne_bounds (m : Nat) (ws1 ws2 : List Wire) :
    assert_equal m ws1 ws2 ≠ .error .bounds := by
  rw [assert_equal]
  split <;> simp

/-- On success, the brute-force `pow(·, -1, m)` model returns the
modular inverse. -/
theorem modInv_spec (m a b : Nat) (h : modInv m a = some b) :
    b < m ∧ a * b % m = 1 := by
  constructor
  · have := List.mem_of_find?_eq_some h
    simpa using this
  · have := List.find?_some h
    simpa using this

/-- For a prime modulus, every nonzero residue has an inverse. -/
theorem modInv_prime (p a : Nat) (hp : Nat.Prime p) (h0 : 0 < a)
    (ha : a < p) : ∃ b, modInv p a = some b ∧ a * b % p = 1 ∧ b < p := by
  have hnd : ¬ p ∣ a := by
    intro hdvd
    have := Nat.le_of_dvd h0 hdvd
    omega
  have hco : Nat.Coprime a p := ((hp.coprime_iff_not_dvd).2 hnd).symm
  obtain ⟨c, hc⟩ := Nat.exists_mul_emod_eq_one_of_coprime hco hp.one_lt
  have hmem : c % p ∈ List.range p := by
    simp [List.mem_range]
    exact Nat.mod_lt _ hp.pos
  have hprop : a * (c % p) % p = 1 := by
    rw [Nat.mul_mod, Nat.mod_mod_of_dvd _ dvd_rfl, ← Nat.mul_mod]
    exact hc
  have hsome : ((List.range p).find? (fun b => a * b % p = 1)).isSome := by
    rw [List.find?_isSome]
    exact ⟨c % p, hmem, by simpa using hprop⟩
  obtain ⟨b, hb⟩ := Option.isSome_iff_exists.1 hsome
  have := modInv_spec p a b hb
  exact ⟨b, hb, this.2, this.1⟩

/-! ### Binary-digit machinery -/

theorem lebits_eq_digits (f v : Nat) (h : v ≤ f) :
    lebits f v = Nat.digits 2 v := by
  induction f generalizing v with
  | zero =>
    interval_cases v
    simp [lebits]
  | succ f ih =>
    cases v with
    | zero => simp [lebits]
    | succ v =>
      rw [lebits, Nat.digits_def' (by norm_num) (Nat.succ_pos v),
        ih ((v + 1) / 2) (by omega)]

theorem pyBin_eq (v : Nat) :
    pyBin v = if v = 0 then [0] else (Nat.digits 2 v).reverse := by
  rw [pyBin]
  split
  · rfl
  · rw [lebits_eq_digits v v le_rfl]

theorem pyBin_zero : pyBin 0 = [0] := by simp [pyBin_eq]

theorem pyBin_length (v : Nat) (h : v ≠ 0) :
    (pyBin v).length = Nat.log2 v + 1 := by
  rw [pyBin_eq, if_neg h, List.length_reverse,
    Nat.digits_len 2 v (by norm_num) h, Nat.log2_eq_log_two]

theorem pyBin_length_pos (v : Nat) : 1 ≤ (pyBin v).length := by
  by_cases h : v = 0
  · simp [h, pyBin_zero]
  · rw [pyBin_length v h]; omega

theorem pyBin_digit_le (v d : Nat) (hd : d ∈ pyBin v) : d ≤ 1 := by
  rw [pyBin_eq] at hd
  by_cases h : v = 0
  · simp [h] at hd
    omega
  · rw [if_neg h, List.mem_reverse] at hd
    have := Nat.digits_lt_base (by norm_num) hd
    omega

theorem zfill_length (L : Nat) (ds : List Nat) :
    (zfill L ds).length = max L ds.length := by
  simp [zfill]
  omega

theorem zfill_digit_le (L v d : Nat) (hd : d ∈ zfill L (pyBin v)) :
    d ≤ 1 := by
  rw [zfill, List.mem_append] at hd
  rcases hd with hd | hd
  · have := List.eq_of_mem_replicate hd
    omega
  · exact pyBin_digit_le v d hd

theorem beValue_foldl (ds : List Nat) (acc : Nat) :
    ds.foldl (fun a d => 2 * a + d) acc =
      acc * 2 ^ ds.length + Nat.ofDigits 2 ds.reverse := by
  induction ds generalizing acc with
  | nil => simp [Nat.ofDigits]
  | cons d ds ih =>
    rw [List.foldl_cons, ih]
    rw [List.reverse_cons, Nat.ofDigits_append]
    simp [Nat.ofDigits]
    ring

theorem beValue_eq_ofDigits (ds : List Nat) :
    beValue ds = Nat.ofDigits 2 ds.reverse := by
  rw [beValue, beValue_foldl]
  simp

theorem beValue_zfill (L : Nat) (ds : List Nat) :
    beValue (zfill L ds) = beValue ds := by
  rw [zfill, beValue, List.foldl_append]
  have : List.foldl (fun a d => 2 * a + d) 0
      (List.replicate (L - ds.length) 0) = 0 := by
    induction (L - ds.length) with
    | zero => rfl
    | succ k ih => simpa [List.replicate_succ] using ih
  rw [this, beValue]

theorem beValue_pyBin (v : Nat) : beValue (pyBin v) = v := by
  rw [beValue_eq_ofDigits, pyBin_eq]
  by_cases h : v = 0
  · simp [h, Nat.ofDigits]
  · rw [if_neg h, List.reverse_reverse, Nat.ofDigits_digits]

/-! ### `assert_bit` and `split` never fail on their actual inputs -/

theorem exbind_ok {α β : Type} (x : α) (f : α → Res β) :
    (Except.ok x >>= f) = f x := rfl

theorem exbind_err {α β : Type} (e : Err) (f : α → Res β) :
    ((Except.error e : Res α) >>= f) = .error e := rfl

theorem assert_bit_ok (m : Nat) (hm : 1 ≤ m) (w : Wire)
    (h : w.value ≤ 1) : assert_bit m w = .ok () := by
  rw [assert_bit]
  have hv : w.value = 0 ∨ w.value = 1 := by omega
  have : (wmul m w (waddInt m (wneg m w) 1)).value = 0 := by
    rcases hv with hv | hv <;>
      simp [wmul, waddInt, wneg, hv, Nat.sub_add_cancel hm]
  simp [this]

theorem forM_ok {α : Type} (f : α → Res PUnit) (l : List α)
    (h : ∀ x ∈ l, f x = .ok ⟨⟩) : l.forM f = .ok ⟨⟩ := by
  induction l with
  | nil => rfl
  | cons a as ih =>
    have hstep : (a :: as).forM f = (f a >>= fun _ => as.forM f) := rfl
    rw [hstep, h a (by simp), exbind_ok]
    exact ih (fun x hx => h x (by simp [hx]))

/-- `split` always succeeds: the padded digit string is never
truncated, so `bit_values_sum` equals the raw wire value and every
digit wire is a bit. -/
theorem split_eq (m : Nat) (hm : 1 ≤ m) (w : Wire) (L : Nat) :
    split m w L =
      .ok ((zfill L (pyBin w.value)).map (fun b => gen b false)) := by
  rw [split]
  have hsum : beValue (zfill L (pyBin w.value)) = w.value := by
    rw [beValue_zfill, beValue_pyBin]
  have hcond : (wmulInt m (gen 1 false) (beValue (zfill L (pyBin w.value)))).value
      = (waddInt m w 0).value := by
    simp [wmulInt, waddInt, gen, hsum]
  rw [if_pos hcond, exbind_ok]
  have hforM : ((zfill L (pyBin w.value)).map (fun b => gen b false)).forM
      (fun bw => assert_bit m bw) = .ok ⟨⟩ := by
    apply forM_ok
    intro x hx
    rw [List.mem_map] at hx
    obtain ⟨d, hd, rfl⟩ := hx
    exact assert_bit_ok m hm _ (zfill_digit_le L w.value d hd)
  rw [hforM, exbind_ok]
  rfl

/-! ### Claim C5: `split` on in-range values -/

/-- C5 counterexample: at the degenerate bit length `L = 0` the wire
value `0` lies in `[0, 2^0)` but `split` returns one wire, not zero
wires; the claim as stated fails there. -/
theorem split_identity_cex :
    (0 : Nat) < 2 ^ 0 ∧
      split 11 (gen 0 false) 0 = .ok [gen 0 false] := by
  constructor
  · norm_num
  · rfl

/-- C5 (amended with `1 ≤ L`): for a wire value in `[0, 2^L)`, `split`
raises no error and returns exactly `L` bit wires, in big-endian
order, whose weighted sum `Σ out[i]·2^(L−1−i)` (the Horner value
`beValue`) is the raw wire value. -/
theorem split_identity (m L : Nat) (w : Wire) (hm : 1 ≤ m) (hL : 1 ≤ L)
    (hw : w.value < 2 ^ L) :
    ∃ out, split m w L = .ok out ∧ out.length = L ∧
      (∀ b ∈ out, b.value = 0 ∨ b.value = 1) ∧
      beValue (out.map Wire.value) = w.value := by
  refine ⟨_, split_eq m hm w L, ?_, ?_, ?_⟩
  · rw [List.length_map, zfill_length]
    have : (pyBin w.value).length ≤ L := by
      by_cases h0 : w.value = 0
      · simp [h0, pyBin_zero]
        omega
      · rw [pyBin_length _ h0]
        have := (Nat.log2_lt h0).2 hw
        omega
    omega
  · intro b hb
    rw [List.mem_map] at hb
    obtain ⟨d, hd, rfl⟩ := hb
    have := zfill_digit_le L w.value d hd
    simp [gen]
    omega
  · have : ((zfill L (pyBin w.value)).map (fun b => gen b false)).map Wire.value
        = zfill L (pyBin w.value) := by
      simp [List.map_map, Function.comp_def, gen]
    rw [this, beValue_zfill, beValue_pyBin]

/-- C5 witness: `split(6, 3)` in the group of modulus 11. -/
theorem split_identity_witness :
    ∃ out, split 11 (gen 6 false) 3 = .ok out ∧ out.length = 3 ∧
      (∀ b ∈ out, b.value = 0 ∨ b.value = 1) ∧
      beValue (out.map Wire.value) = (gen 6 false).value :=
  split_identity 11 3 (gen 6 false) (by norm_num) (by norm_num) (by decide)

/-! ### Claim C10: `split` on over-range values -/

/-- C10: when `int(w) ≥ 2^L`, `split` still raises no error; the
zero-padding never truncates, so it returns one bit wire per binary
digit of `int(w)` — strictly more than `L` — and the weighted sum is
still the untruncated value. -/
theorem split_overflow (m L : Nat) (w : Wire) (hm : 1 ≤ m)
    (hw : 2 ^ L ≤ w.value) :
    ∃ out, split m w L = .ok out ∧
      out.length = (pyBin w.value).length ∧ L < out.length ∧
      (∀ b ∈ out, b.value = 0 ∨ b.value = 1) ∧
      beValue (out.map Wire.value) = w.value := by
  have h0 : w.value ≠ 0 := by
    have := Nat.pos_pow_of_pos L (show 0 < 2 by norm_num)
    omega
  have hlen : L < (pyBin w.value).length := by
    rw [pyBin_length _ h0]
    have := (Nat.le_log2 h0).2 hw
    omega
  refine ⟨_, split_eq m hm w L, ?_, ?_, ?_, ?_⟩
  · rw [List.length_map, zfill_length]
    omega
  · rw [List.length_map, zfill_length]
    omega
  · intro b hb
    rw [List.mem_map] at hb
    obtain ⟨d, hd, rfl⟩ := hb
    have := zfill_digit_le L w.value d hd
    simp [gen]
    omega
  · have : ((zfill L (pyBin w.value)).map (fun b => gen b false)).map Wire.value
        = zfill L (pyBin w.value) := by
      simp [List.map_map, Function.comp_def, gen]
    rw [this, beValue_zfill, beValue_pyBin]

/-- C10 witness: `split(37, 4)` in the group of modulus 11 returns six
bit wires. -/
theorem split_overflow_witness :
    ∃ out, split 11 (gen 37 false) 4 = .ok out ∧
      out.length = (pyBin (gen 37 false).value).length ∧ 4 < out.length ∧
      (∀ b ∈ out, b.value = 0 ∨ b.value = 1) ∧
      beValue (out.map Wire.value) = (gen 37 false).value :=
  split_overflow 11 4 (gen 37 false) (by norm_num) (by decide)

/-! ### Claim C1: the counter policy of `Wire.__mul__` / `Wire.invert` -/

/-- C1 counterexample: a const wire multiplied by a non-const wire
*does* increment both counters (the source only inspects the right
operand's flag), whereas the claim says the counters are unchanged
unless neither operand is const. -/
theorem mul_counter_cex :
    (wireMulWire 11 (gen 1 true) (gen 1 false) ⟨0, 0⟩).2 =
        (⟨1, 1⟩ : Counters) ∧
      (gen 1 true).is_const = true := ⟨rfl, rfl⟩

/-- C1 (amended): `a * b` increments `Wire.n_mul` and `Wire.n_wires`
by exactly one if and only if the right operand `b` is a non-const
`Wire` (irrespective of `a.is_const`); a plain-integer operand in
either position never increments them; and `invert` increments both by
exactly one if and only if its operand is non-const. -/
theorem mul_counter_policy (m k : Nat) (a b : Wire) (s : Counters) :
    ((wireMulWire m a b s).2 =
        if b.is_const then s else ⟨s.n_mul + 1, s.n_wires + 1⟩) ∧
      (wireMulInt m a k s).2 = s ∧
      (∀ w s', wireInvert m a s = .ok (w, s') →
        s' = if a.is_const then s else ⟨s.n_mul + 1, s.n_wires + 1⟩) := by
  refine ⟨?_, rfl, ?_⟩
  · rw [wireMulWire]
    split <;> simp_all
  · intro w s' h
    rw [wireInvert] at h
    cases hmi : modInv m a.value with
    | none => rw [hmi] at h; exact absurd h (by simp)
    | some v =>
      rw [hmi] at h
      simp at h
      exact h.2.symm

/-- C1 witness: inverting the non-const wire `3` modulo 11 bumps the
counters from `(5, 7)` to `(6, 8)`. -/
theorem mul_counter_policy_witness :
    (⟨6, 8⟩ : Counters) =
      if (gen 3 false).is_const then (⟨5, 7⟩ : Counters) else ⟨6, 8⟩ :=
  (mul_counter_policy 11 0 (gen 3 false) (gen 0 false) ⟨5, 7⟩).2.2
    (gen 4 false) ⟨6, 8⟩ rfl

/-! ### Claim C4: the bits-bound check of `gt` and `assert_gt` -/

theorem exbind_ne {α β : Type} (x : Res α) (f : α → Res β) (e : Err)
    (hx : x ≠ .error e) (hf : ∀ a, f a ≠ .error e) :
    (x >>= f) ≠ .error e := by
  cases x with
  | ok a => rw [exbind_ok]; exact hf a
  | error e' =>
    rw [exbind_err]
    intro h
    exact hx (by simpa using h)

theorem assert_bit_ne_bounds (m : Nat) (w : Wire) :
    assert_bit m w ≠ .error .bounds := by
  rw [assert_bit]
  split <;> simp

theorem expure_ne {α : Type} (x : α) (e : Err) :
    (pure x : Res α) ≠ .error e := by
  simp [pure, Except.pure]

theorem split_ne_bounds (m : Nat) (w : Wire) (L : Nat) :
    split m w L ≠ .error .bounds := by
  rw [split]
  apply exbind_ne
  · split <;> simp
  · intro a
    apply exbind_ne
    · generalize (zfill L (pyBin w.value)).map (fun b => gen b false) = l
      induction l with
      | nil => exact expure_ne _ _
      | cons x xs ih =>
        have hstep : (x :: xs).forM (fun bw => assert_bit m bw) =
            (assert_bit m x >>= fun _ => xs.forM (fun bw => assert_bit m bw)) :=
          rfl
        rw [hstep]
        exact exbind_ne _ _ _ (assert_bit_ne_bounds m x) (fun _ => ih)
    · intro a
      exact expure_ne _ _

/-- C4 counterexample: with `p = 13` and `bits = 2` the claim's bound
`⌊log₂(p)/2⌋ = 1` is exceeded, yet `gt` succeeds — the code's actual
bound is `len(bin(p)) // 2 = 2`. -/
theorem gt_bounds_cex :
    gt 13 (gen 0 false) (gen 0 false) 2 = .ok (gen 1 false) ∧
      Nat.log2 13 / 2 < 2 := by
  constructor
  · rfl
  · norm_num [Nat.log2]

/-- C4 (amended): the construction-time bound check of `gt` and
`assert_gt` fails if and only if `bits > bit_length(p) // 2` where
`bit_length(p) = len(bin(p)[2:]) = ⌊log₂ p⌋ + 1`; for
`bits ≤ bit_length(p) // 2` no bound-related error is raised,
regardless of the wire values. -/
theorem gt_bounds_policy (m bits : Nat) (a b : Wire) :
    (gt m a b bits = .error .bounds ↔ bitLength m / 2 < bits) ∧
      (assert_gt m a b bits = .error .bounds ↔ bitLength m / 2 < bits) := by
  constructor
  · by_cases h : bitLength m / 2 < bits
    · simp only [h, iff_true]
      rw [gt, if_pos (show bits > bitLength m / 2 from h)]
      rfl
    · simp only [h, iff_false]
      rw [gt, if_neg (by omega), exbind_ok]
      apply exbind_ne _ _ _ (split_ne_bounds _ _ _)
      intro a1
      apply exbind_ne _ _ _ (assert_bit_ne_bounds _ _)
      intro a2
      apply exbind_ne _ _ _ (assert_equal_ne_bounds _ _ _)
      intro a3
      exact expure_ne _ _
  · by_cases h : bitLength m / 2 < bits
    · simp only [h, iff_true]
      rw [assert_gt, if_pos (show bits > bitLength m / 2 from h)]
      rfl
    · simp only [h, iff_false]
      rw [assert_gt, if_neg (by omega), exbind_ok]
      apply exbind_ne
      · split <;> simp
      · intro a1
        apply exbind_ne _ _ _ (split_ne_bounds _ _ _)
        intro a2
        apply exbind_ne _ _ _ (assert_equal_ne_bounds _ _ _)
        intro a3
        exact expure_ne _ _

/-! ### Claim C3: `convert_homogeneous_to_affine_coordinates` -/

/-- C3: evaluating the conversion at the non-canonical infinity
representative `(3, 5, 0)` over `p = 13`.  The override wires computed
from the zero indicator are dead locals in the source, so the function
returns the raw safe-division quotients `(3, 5, 0)` instead of the
canonical `(0, 1, 0)` the spec (and the dead code) intend. -/
theorem convert_dead_override_bug :
    convert_homogeneous_to_affine_coordinates 13
        ⟨gen 3 false, gen 5 false, gen 0 false⟩ =
      .ok ⟨gen 3 false, gen 5 false, gen 0 false⟩ := rfl

/-! ### Claim C9: `add_votes_for_ordering` -/

theorem mem_arrangements (n i : Nat) (o : List Nat) :
    o ∈ arrangements n i ↔
      o.Nodup ∧ (∀ x ∈ o, x < n) ∧ o.length = i := by
  rw [arrangements, List.mem_flatMap]
  constructor
  · rintro ⟨s, hs, ho⟩
    rw [List.mem_sublistsLen] at hs
    rw [List.mem_permutations'] at ho
    have hsub := hs.1
    have hnd : s.Nodup := hsub.nodup (List.nodup_range n)
    refine ⟨ho.nodup_iff.2 hnd, ?_, ?_⟩
    · intro x hx
      have : x ∈ List.range n := hsub.subset (ho.mem_iff.1 hx)
      simpa using this
    · rw [ho.length_eq, hs.2]
  · rintro ⟨hnd, hbd, hlen⟩
    refine ⟨(List.range n).filter (· ∈ o), ?_, ?_⟩
    · rw [List.mem_sublistsLen]
      have hperm : o.Perm ((List.range n).filter (· ∈ o)) := by
        apply (List.perm_ext_iff_of_nodup hnd
          ((List.filter_sublist _).nodup (List.nodup_range n))).2
        intro x
        simp only [List.mem_filter, List.mem_range, decide_eq_true_eq]
        exact ⟨fun hx => ⟨hbd x hx, hx⟩, fun hx => hx.2⟩
      exact ⟨List.filter_sublist _, by rw [← hperm.length_eq, hlen]⟩
    · rw [List.mem_permutations']
      apply (List.perm_ext_iff_of_nodup hnd
        ((List.filter_sublist _).nodup (List.nodup_range n))).2
      intro x
      simp only [List.mem_filter, List.mem_range, decide_eq_true_eq]
      exact ⟨fun hx => ⟨hbd x hx, hx⟩, fun hx => hx.2⟩

/-- The key set enumerated by `init_mapping` is exactly the set of
duplicate-free orderings over known choices. -/
theorem mem_irvKeys (n : Nat) (o : List Nat) :
    o ∈ irvKeys n ↔ o.Nodup ∧ (∀ x ∈ o, x < n) := by
  rw [irvKeys, List.mem_append, List.mem_flatMap]
  constructor
  · rintro (⟨i, _, ho⟩ | ho)
    · have := (mem_arrangements n i o).1 ho
      exact ⟨this.1, this.2.1⟩
    · simp at ho
      subst ho
      simp
  · rintro ⟨hnd, hbd⟩
    by_cases h0 : o = []
    · right; simp [h0]
    · left
      have hlen : o.length ≤ n := by
        have : o.Subperm (List.range n) :=
          hnd.subperm (fun x hx => by simpa using hbd x hx)
        simpa using this.length_le
      refine ⟨o.length, ?_, (mem_arrangements n o.length o).2 ⟨hnd, hbd, rfl⟩⟩
      rw [List.mem_map]
      refine ⟨o.length - 1, ?_, ?_⟩
      · rw [List.mem_reverse, List.mem_range]
        omega
      · have : 1 ≤ o.length := by
          cases o with
          | nil => exact absurd rfl h0
          | cons a l => simp
        omega

theorem mgrLookup_isSome_iff (mgr : Mgr) (k : List Nat) :
    (mgrLookup mgr k).isSome ↔ k ∈ mgr.map Prod.fst := by
  induction mgr with
  | nil => simp [mgrLookup]
  | cons kv mgr ih =>
    by_cases h : kv.1 = k
    · simp [mgrLookup, h]
    · simp [mgrLookup, h, ih, Ne.symm h]

theorem mgrLookup_update_self (mgr : Mgr) (k : List Nat) (f : Wire → Wire) :
    mgrLookup (mgrUpdate mgr k f) k = (mgrLookup mgr k).map f := by
  induction mgr with
  | nil => rfl
  | cons kv mgr ih =>
    by_cases h : kv.1 = k
    · simp [mgrUpdate, mgrLookup, h]
    · simp only [mgrUpdate, List.map_cons, if_neg h]
      simp only [mgrLookup, if_neg h]
      simpa [mgrUpdate] using ih

theorem mgrLookup_update_ne (mgr : Mgr) (k k' : List Nat)
    (f : Wire → Wire) (h : k' ≠ k) :
    mgrLookup (mgrUpdate mgr k f) k' = mgrLookup mgr k' := by
  induction mgr with
  | nil => rfl
  | cons kv mgr ih =>
    by_cases hk : kv.1 = k
    · have hne : kv.1 ≠ k' := by rw [hk]; exact fun hh => h hh.symm
      simp only [mgrUpdate, List.map_cons, if_pos hk]
      simp only [mgrLookup, if_neg hne]
      simpa [mgrUpdate] using ih
    · simp only [mgrUpdate, List.map_cons, if_neg hk]
      by_cases hk' : kv.1 = k'
      · simp [mgrLookup, hk']
      · simp only [mgrLookup, if_neg hk']
        simpa [mgrUpdate] using ih

/-- C9: on a ballot manager whose key set is the one `init_mapping`
enumerates, `add_votes_for_ordering(o, n)` adds `n` to the count under
`o` (leaving every other key untouched) exactly when `o` is a
duplicate-free list of known choices, and fails otherwise (Python
raises there; the spec's single error kind covers it). -/
theorem add_votes_policy (m n : Nat) (mgr : Mgr) (o : List Nat)
    (nv : Wire) (hkeys : mgr.map Prod.fst = irvKeys n) :
    ((o.Nodup ∧ ∀ x ∈ o, x < n) →
      ∃ cur, mgrLookup mgr o = some cur ∧
        add_votes_for_ordering m mgr o nv =
          .ok (mgrUpdate mgr o (fun c => wadd m c nv)) ∧
        mgrLookup (mgrUpdate mgr o (fun c => wadd m c nv)) o =
          some (wadd m cur nv) ∧
        (∀ k, k ≠ o →
          mgrLookup (mgrUpdate mgr o (fun c => wadd m c nv)) k =
            mgrLookup mgr k)) ∧
      (¬ (o.Nodup ∧ ∀ x ∈ o, x < n) →
        add_votes_for_ordering m mgr o nv = .error .keyMissing) := by
  constructor
  · intro ho
    have hmem : o ∈ mgr.map Prod.fst := by
      rw [hkeys, mem_irvKeys]
      exact ho
    have hsome := (mgrLookup_isSome_iff mgr o).2 hmem
    obtain ⟨cur, hcur⟩ := Option.isSome_iff_exists.1 hsome
    refine ⟨cur, hcur, ?_, ?_, ?_⟩
    · rw [add_votes_for_ordering, hcur]
    · rw [mgrLookup_update_self, hcur]; rfl
    · intro k hk
      exact mgrLookup_update_ne mgr o k _ hk
  · intro ho
    have hmem : o ∉ mgr.map Prod.fst := by
      rw [hkeys, mem_irvKeys]
      exact ho
    have : mgrLookup mgr o = none := by
      by_contra hne
      have : (mgrLookup mgr o).isSome := by
        cases hl : mgrLookup mgr o with
        | none => exact absurd hl hne
        | some w => simp
      exact hmem ((mgrLookup_isSome_iff mgr o).1 this)
    rw [add_votes_for_ordering, this]

/-- C9 witness: the manager for three choices accepts the legal
ordering `[0, 1]`. -/
theorem add_votes_policy_witness :
    ∃ cur, mgrLookup (initManager 3) [0, 1] = some cur ∧
      add_votes_for_ordering 11 (initManager 3) [0, 1] (gen 2 false) =
        .ok (mgrUpdate (initManager 3) [0, 1]
          (fun c => wadd 11 c (gen 2 false))) ∧
      mgrLookup (mgrUpdate (initManager 3) [0, 1]
          (fun c => wadd 11 c (gen 2 false))) [0, 1] =
        some (wadd 11 cur (gen 2 false)) ∧
      (∀ k, k ≠ [0, 1] →
        mgrLookup (mgrUpdate (initManager 3) [0, 1]
            (fun c => wadd 11 c (gen 2 false))) k =
          mgrLookup (initManager 3) k) :=
  (add_votes_policy 11 3 (initManager 3) [0, 1] (gen 2 false)
      (by decide)).1 (by decide)

/-! ### Claim C7: multiplication counts of `xadd` and homogeneous
`xdbl` -/

/-- C7: with every point-coordinate wire and the curve parameter `A`
non-const, one `xadd` bumps `Wire.n_mul` (and `Wire.n_wires`) by
exactly 6 and one homogeneous `xdbl` by exactly 5, from any starting
counter values. -/
theorem xadd_xdbl_mul_counts (m : Nat) (p q pm : XZ) (A : Wire)
    (s s2 : Counters)
    (hpx : p.x.is_const = false) (hpz : p.z.is_const = false)
    (hqx : q.x.is_const = false) (hqz : q.z.is_const = false)
    (hmx : pm.x.is_const = false) (hmz : pm.z.is_const = false)
    (hA : A.is_const = false) (h4 : (modInv m 4).isSome) :
    (xaddS m p q pm s).2 = ⟨s.n_mul + 6, s.n_wires + 6⟩ ∧
      ∃ r, xdblS m p A s2 = .ok (r, ⟨s2.n_mul + 5, s2.n_wires + 5⟩) := by
  constructor
  · rw [xaddS]
    simp only [wireMulWire, wmul, wadd, wsub, wneg, hpx, hpz, hqx, hqz,
      hmx, hmz, Bool.and_self, Bool.and_false, Bool.false_and,
      if_neg (Bool.false_ne_true)]
  · obtain ⟨i4, hi4⟩ := Option.isSome_iff_exists.1 h4
    apply Exists.intro
    rw [xdblS, hi4]
    simp only [wireMulWire, wmul, wmulInt, waddInt, wadd, wsub, wneg,
      hpx, hpz, hA, Bool.and_self, Bool.and_false, Bool.false_and,
      if_neg (Bool.false_ne_true), Except.ok.injEq, Prod.mk.injEq,
      Counters.mk.injEq]
    exact ⟨rfl, trivial⟩

/-! ### Claim C2: correctness of `gt` / `lt` -/

theorem gt_ok (m bits : Nat) (a b : Wire) (hm : 0 < m)
    (ha : a.value < m) (hb : b.value < m)
    (hbits : bits ≤ bitLength m / 2) :
    gt m a b bits = .ok (gen (if b.value ≤ a.value then 1 else 0) false) := by
  have hnotgt : ¬ bits > bitLength m / 2 := by omega
  have hres_le : (gen (if a.value ≥ b.value then 1 else 0) false).value ≤ 1 := by
    by_cases h : a.value ≥ b.value <;> simp [h, gen]
  rw [gt, if_neg hnotgt, exbind_ok]
  simp only [exbind_ok, split_eq m hm]
  rw [assert_bit_ok m hm _ hres_le, exbind_ok]
  have hassert : assert_equal m
      [wmul m (wmulInt m (gen (if a.value ≥ b.value then 1 else 0) false) 2)
        (wsub m a b)]
      (wsub m
        (waddInt m
          (wadd m (wsub m a b)
            (gen (if a.value ≥ b.value then (wsub m a b).value
                  else m - (wsub m a b).value - 1) false))
          1)
        (gen (if a.value ≥ b.value then 1 else 0) false) :: []) = .ok () := by
    rw [assert_equal_iff]
    by_cases h : a.value ≥ b.value
    · have hdv : (wsub m a b).value = a.value - b.value := by
        show (a.value + (m - b.value)) % m = a.value - b.value
        have h1 : a.value + (m - b.value) = m + (a.value - b.value) := by omega
        rw [h1, Nat.add_mod_left, Nat.mod_eq_of_lt (by omega)]
      simp only [if_pos h, List.map_cons, List.map_nil, List.sum_cons,
        List.sum_nil, Nat.add_zero]
      simp only [wmul, wmulInt, wsub, wadd, wneg, waddInt, gen, hdv]
      rw [Nat.mod_mod_of_dvd _ dvd_rfl]
      conv_lhs => rw [Nat.mul_mod, Nat.mod_mod_of_dvd _ dvd_rfl,
        Nat.mod_mod_of_dvd _ dvd_rfl, ← Nat.mul_mod]
      rw [Nat.mod_add_mod, Nat.mod_mod_of_dvd _ dvd_rfl, Nat.add_assoc]
      have hm1 : 1 + (m - 1) = m := by omega
      rw [hm1, Nat.add_mod_right, Nat.mod_mod_of_dvd _ dvd_rfl,
        Nat.add_mod_mod, one_mul, two_mul, Nat.mod_add_mod]
    · have hd1 : 1 ≤ b.value - a.value := by omega
      have hdv : (wsub m a b).value = m - (b.value - a.value) := by
        show (a.value + (m - b.value)) % m = m - (b.value - a.value)
        rw [Nat.mod_eq_of_lt (by omega)]
        omega
      simp only [if_neg h, List.map_cons, List.map_nil, List.sum_cons,
        List.sum_nil, Nat.add_zero]
      simp only [wmul, wmulInt, wsub, wadd, wneg, waddInt, gen, hdv]
      rw [Nat.mod_mod_of_dvd _ dvd_rfl]
      have hz : (0 : Nat) * 2 % m * ((a.value + (m - b.value)) % m) % m = 0 := by
        simp
      rw [hz]
      have ht : (a.value + (m - b.value)) % m < m := Nat.mod_lt _ hm
      have h5 : (a.value + (m - b.value)) % m +
          (m - (a.value + (m - b.value)) % m - 1) = m - 1 := by omega
      rw [h5, Nat.mod_eq_of_lt (show m - 1 < m by omega)]
      have h6 : m - 1 + 1 = m := by omega
      rw [h6, Nat.mod_self, Nat.sub_zero, Nat.zero_add, Nat.mod_self,
        Nat.zero_mod]
  rw [hassert, exbind_ok]
  have : (if a.value ≥ b.value then 1 else 0) =
      (if b.value ≤ a.value then 1 else 0) := rfl
  rw [this]
  rfl

/-- C2: for a prime modulus `p`, `bits ≤ ⌊log₂(p)/2⌋`, and wire values
in `[0, 2^bits)`, `gt` raises no error and returns the indicator of
`int(a) ≥ int(b)`, and `lt(a, b, bits)` is exactly `gt(b, a, bits)`. -/
theorem gt_correct (p bits : Nat) (a b : Wire) (hp : Nat.Prime p)
    (hbits : bits ≤ Nat.log2 p / 2)
    (ha : a.value < 2 ^ bits) (hb : b.value < 2 ^ bits) :
    gt p a b bits = .ok (gen (if b.value ≤ a.value then 1 else 0) false) ∧
      lt p a b bits = gt p b a bits := by
  have hp0 : p ≠ 0 := hp.pos.ne'
  have hpow : 2 ^ bits ≤ p := by
    calc 2 ^ bits ≤ 2 ^ Nat.log2 p :=
          Nat.pow_le_pow_right (by norm_num) (by omega)
      _ ≤ p := (Nat.le_log2 hp0).1 le_rfl
  have hbl : bitLength p = Nat.log2 p + 1 := pyBin_length p hp0
  refine ⟨gt_ok p bits a b hp.pos (by omega) (by omega) ?_, rfl⟩
  rw [hbl]
  omega

/-- C2 witness: `p = 13`, `bits = 1`, values `1` and `0`. -/
theorem gt_correct_witness :
    gt 13 (gen 1 false) (gen 0 false) 1 =
        .ok (gen (if (gen 0 false).value ≤ (gen 1 false).value then 1 else 0)
          false) ∧
      lt 13 (gen 1 false) (gen 0 false) 1 = gt 13 (gen 0 false) (gen 1 false) 1 :=
  gt_correct 13 1 (gen 1 false) (gen 0 false) (by norm_num)
    (by norm_num [Nat.log2]) (by decide) (by decide)

/-- C7 witness at concrete points over `p = 13`. -/
theorem xadd_xdbl_mul_counts_witness :
    (xaddS 13 ⟨gen 2 false, gen 3 false⟩ ⟨gen 4 false, gen 5 false⟩
        ⟨gen 6 false, gen 7 false⟩ ⟨0, 0⟩).2 = (⟨6, 6⟩ : Counters) ∧
      ∃ r, xdblS 13 ⟨gen 2 false, gen 3 false⟩ (gen 3 false) ⟨10, 20⟩ =
        .ok (r, (⟨15, 25⟩ : Counters)) :=
  xadd_xdbl_mul_counts 13 ⟨gen 2 false, gen 3 false⟩
    ⟨gen 4 false, gen 5 false⟩ ⟨gen 6 false, gen 7 false⟩ (gen 3 false)
    ⟨0, 0⟩ ⟨10, 20⟩ rfl rfl rfl rfl rfl rfl rfl (by decide)

/-! ### Value bounds and success lemmas for the comparison and
arithmetic gates -/

theorem wadd_lt (m : Nat) (hm : 0 < m) (a b : Wire) :
    (wadd m a b).value < m := Nat.mod_lt _ hm

theorem wmul_lt (m : Nat) (hm : 0 < m) (a b : Wire) :
    (wmul m a b).value < m := Nat.mod_lt _ hm

theorem wmulInt_lt (m : Nat) (hm : 0 < m) (a : Wire) (k : Nat) :
    (wmulInt m a k).value < m := Nat.mod_lt _ hm

theorem waddInt_lt (m : Nat) (hm : 0 < m) (a : Wire) (k : Nat) :
    (waddInt m a k).value < m := Nat.mod_lt _ hm

theorem wsub_lt (m : Nat) (hm : 0 < m) (a b : Wire) :
    (wsub m a b).value < m := Nat.mod_lt _ hm

theorem wsubInt_lt (m : Nat) (hm : 0 < m) (a : Wire) (k : Nat) :
    (wsubInt m a k).value < m := Nat.mod_lt _ hm

/-- `1 - w` for a wire holding `0` is the wire holding `1`
(`(m - 0 + 1) % m = 1` for `m ≥ 2`). -/
theorem one_sub_zero_wire (m : Nat) (hm : 2 ≤ m) (w : Wire)
    (h : w.value = 0) : (waddInt m (wneg m w) 1).value = 1 := by
  simp only [waddInt, wneg, h, Nat.sub_zero]
  rw [Nat.add_mod_left]
  exact Nat.mod_eq_of_lt (by omega)

/-- `1 - w` for a wire holding `1` is the wire holding `0`. -/
theorem one_sub_one_wire (m : Nat) (hm : 1 ≤ m) (w : Wire)
    (h : w.value = 1) : (waddInt m (wneg m w) 1).value = 0 := by
  simp only [waddInt, wneg, h]
  rw [Nat.sub_add_cancel hm, Nat.mod_self]

/-- `eq_zero` succeeds for any wire value below a prime modulus and
returns the zero indicator. -/
theorem eq_zero_ok (p : Nat) (w : Wire) (hp : Nat.Prime p)
    (hw : w.value < p) :
    eq_zero p w = .ok (gen (if w.value = 0 then 1 else 0) false) := by
  have hp2 : 2 ≤ p := hp.two_le
  by_cases h : w.value = 0
  · rw [eq_zero, if_pos h, exbind_ok]
    have h1 : assert_equal p [wmul p (gen 1 false) w] [gen 0 false] = .ok () := by
      rw [assert_equal_iff]
      simp [wmul, gen, h]
    have h2 : assert_equal p [wmul p w (gen 0 false)]
        [waddInt p (wneg p (gen 1 false)) 1] = .ok () := by
      rw [assert_equal_iff]
      have := one_sub_one_wire p (by omega) (gen 1 false) rfl
      simp only [List.map_cons, List.map_nil, List.sum_cons, List.sum_nil,
        Nat.add_zero, this]
      simp [wmul, gen]
    simp only [h1, h2, exbind_ok]
    simp [h]
    rfl
  · obtain ⟨b, hb, hprop, hblt⟩ :=
      modInv_prime p w.value hp (by omega) hw
    rw [eq_zero, if_neg h, hb, exbind_ok]
    have h1 : assert_equal p [wmul p (gen 0 false) w] [gen 0 false] = .ok () := by
      rw [assert_equal_iff]
      simp [wmul, gen]
    have h2 : assert_equal p [wmul p w (gen b false)]
        [waddInt p (wneg p (gen 0 false)) 1] = .ok () := by
      rw [assert_equal_iff]
      have := one_sub_zero_wire p hp2 (gen 0 false) rfl
      simp only [List.map_cons, List.map_nil, List.sum_cons, List.sum_nil,
        Nat.add_zero, this]
      show (wmul p w (gen b false)).value % p = 1 % p
      have : (wmul p w (gen b false)).value = 1 := hprop
      rw [this]
    simp only [h1, h2, exbind_ok]
    simp [h]
    rfl

/-- `eq` succeeds on values below a prime modulus and returns the
equality indicator. -/
theorem eq_ok (p : Nat) (a b : Wire) (hp : Nat.Prime p)
    (ha : a.value < p) (hb : b.value < p) :
    eq p a b = .ok (gen (if a.value = b.value then 1 else 0) false) := by
  rw [eq, eq_zero_ok p _ hp (wsub_lt p hp.pos a b)]
  have : ((wsub p a b).value = 0) = (a.value = b.value) := by
    show ((a.value + (p - b.value)) % p = 0) = _
    apply propext
    constructor
    · intro h
      have hp0 : 0 < p := hp.pos
      have hdm := Nat.div_add_mod (a.value + (p - b.value)) p
      rw [h, Nat.add_zero] at hdm
      have hqlt : (a.value + (p - b.value)) / p < 2 :=
        (Nat.div_lt_iff_lt_mul hp0).2 (by omega)
      interval_cases hq : (a.value + (p - b.value)) / p <;> omega
    · intro h
      rw [h]
      have : b.value + (p - b.value) = p := by omega
      rw [this, Nat.mod_self]
  simp only [this]

/-- `eq_zero_multiple` succeeds for any wire list below a prime
modulus and returns the zero indicator of the reduced sum. -/
theorem eq_zero_multiple_ok (p : Nat) (ws : List Wire) (hp : Nat.Prime p) :
    eq_zero_multiple p ws =
      .ok (gen (if (pySum p ws).value = 0 then 1 else 0) false) := by
  have hp2 : 2 ≤ p := hp.two_le
  have hlt : (pySum p ws).value < p := by
    cases ws with
    | nil => simp [pySum]; omega
    | cons w ws =>
      rw [pySum_value]
      exact Nat.mod_lt _ hp.pos
  by_cases h : (pySum p ws).value = 0
  · rw [eq_zero_multiple, if_pos h, exbind_ok]
    have h1 : assert_equal p [wmulInt p (gen 1 false) (pySum p ws).value]
        [gen 0 false] = .ok () := by
      rw [assert_equal_iff]
      simp [wmulInt, gen, h]
    have h2 : assert_equal p [wmulInt p (gen 0 false) (pySum p ws).value]
        [waddInt p (wneg p (gen 1 false)) 1] = .ok () := by
      rw [assert_equal_iff]
      have := one_sub_one_wire p (by omega) (gen 1 false) rfl
      simp only [List.map_cons, List.map_nil, List.sum_cons, List.sum_nil,
        Nat.add_zero, this]
      simp [wmulInt, gen]
    simp only [h1, h2, exbind_ok]
    simp [h]
    rfl
  · obtain ⟨b, hb, hprop, hblt⟩ :=
      modInv_prime p (pySum p ws).value hp (by omega) hlt
    rw [eq_zero_multiple, if_neg h, hb, exbind_ok]
    have h1 : assert_equal p [wmulInt p (gen 0 false) (pySum p ws).value]
        [gen 0 false] = .ok () := by
      rw [assert_equal_iff]
      simp [wmulInt, gen]
    have h2 : assert_equal p [wmulInt p (gen b false) (pySum p ws).value]
        [waddInt p (wneg p (gen 0 false)) 1] = .ok () := by
      rw [assert_equal_iff]
      have := one_sub_zero_wire p hp2 (gen 0 false) rfl
      simp only [List.map_cons, List.map_nil, List.sum_cons, List.sum_nil,
        Nat.add_zero, this]
      show (wmulInt p (gen b false) (pySum p ws).value).value % p = 1 % p
      have : (wmulInt p (gen b false) (pySum p ws).value).value = 1 := by
        show b * (pySum p ws).value % p = 1
        rw [Nat.mul_comm]
        exact hprop
      rw [this]
    simp only [h1, h2, exbind_ok]
    simp [h]
    rfl

/-! ### Branching and division success lemmas -/

theorem itei_one (m : Nat) (hm : 2 ≤ m) (c : Wire) (t : Nat) (e : Wire)
    (hc : c.value = 1) : (if_then_else_int m c t e).value = t % m := by
  have h1 : (waddInt m (wneg m c) 1).value = 0 :=
    one_sub_one_wire m (by omega) c hc
  show (c.value * t % m + (waddInt m (wneg m c) 1).value * e.value % m) % m
    = t % m
  rw [h1, hc, Nat.one_mul, Nat.zero_mul, Nat.zero_mod, Nat.add_zero,
    Nat.mod_mod_of_dvd _ dvd_rfl]

theorem itei_zero (m : Nat) (hm : 2 ≤ m) (c : Wire) (t : Nat) (e : Wire)
    (hc : c.value = 0) (he : e.value < m) :
    (if_then_else_int m c t e).value = e.value := by
  have h1 : (waddInt m (wneg m c) 1).value = 1 :=
    one_sub_zero_wire m hm c hc
  show (c.value * t % m + (waddInt m (wneg m c) 1).value * e.value % m) % m
    = e.value
  rw [h1, hc, Nat.zero_mul, Nat.zero_mod, Nat.one_mul, Nat.zero_add,
    Nat.mod_mod_of_dvd _ dvd_rfl, Nat.mod_eq_of_lt he]

theorem winvert_ok (p : Nat) (a : Wire) (hp : Nat.Prime p)
    (h0 : a.value ≠ 0) (ha : a.value < p) :
    ∃ w, winvert p a = .ok w ∧ w.value < p := by
  obtain ⟨b, hb, _, hblt⟩ := modInv_prime p a.value hp (by omega) ha
  exact ⟨⟨b, a.is_const⟩, by rw [winvert, hb], hblt⟩

theorem division_ok (p : Nat) (a d : Wire) (hp : Nat.Prime p)
    (h0 : d.value ≠ 0) (hd : d.value < p) :
    ∃ q, division p a d = .ok q ∧ q.value < p := by
  obtain ⟨w, hw, hwlt⟩ := winvert_ok p d hp h0 hd
  refine ⟨wmul p a w, ?_, wmul_lt p hp.pos _ _⟩
  rw [division, if_neg h0, exbind_ok, hw, exbind_ok]
  rfl

theorem division_safe_ok (p : Nat) (a d : Wire) (hp : Nat.Prime p)
    (hd : d.value < p) :
    ∃ q, division_safe p a d = .ok q ∧ q.value < p := by
  have hp2 : 2 ≤ p := hp.two_le
  have hc := eq_zero_ok p d hp hd
  have hsafe : (if_then_else_int p
      (gen (if d.value = 0 then 1 else 0) false) 1 d).value ≠ 0 ∧
      (if_then_else_int p
        (gen (if d.value = 0 then 1 else 0) false) 1 d).value < p := by
    by_cases h : d.value = 0
    · rw [itei_one p hp2 _ 1 d (by simp [gen, h]),
        Nat.mod_eq_of_lt (by omega)]
      omega
    · rw [itei_zero p hp2 _ 1 d (by simp [gen, h]) hd]
      exact ⟨h, hd⟩
  obtain ⟨q, hq, hqlt⟩ :=
    division_ok p a _ hp hsafe.1 hsafe.2
  refine ⟨q, ?_, hqlt⟩
  rw [division_safe, hc, exbind_ok, hq]

theorem and_gate_pair (m : Nat) (c1 c2 : Wire) :
    and_gate m [c1, c2] = .ok (wmul m c1 c2) := rfl

/-! ### Totality of the ladder components -/

theorem xdbl_ok (m : Nat) (pt : XZ) (A : Wire) (hm : 0 < m)
    (h4 : (modInv m 4).isSome) :
    ∃ r, xdbl m pt A = .ok r ∧ XZwf m r := by
  obtain ⟨i4, hi4⟩ := Option.isSome_iff_exists.1 h4
  rw [xdbl, hi4]
  exact ⟨_, rfl, wmul_lt m hm _ _, wmul_lt m hm _ _⟩

theorem ladderStep_ok (m : Nat) (pt : XZ) (A : Wire) (hm : 0 < m)
    (h4 : (modInv m 4).isSome) (st : XZ × XZ) (i : Wire) :
    ∃ st', ladderStep m pt A st i = .ok st' ∧
      XZwf m st'.1 ∧ XZwf m st'.2 := by
  obtain ⟨r00, h00, _⟩ := xdbl_ok m st.1 A hm h4
  obtain ⟨r11, h11, _⟩ := xdbl_ok m st.2 A hm h4
  apply Exists.intro
  constructor
  · rw [ladderStep]
    simp only [h00, h11, exbind_ok]
    rfl
  · exact ⟨⟨wadd_lt m hm _ _, wadd_lt m hm _ _⟩,
      ⟨wsub_lt m hm _ _, wsub_lt m hm _ _⟩⟩

theorem foldlM_ladderStep_ok (m : Nat) (pt : XZ) (A : Wire) (hm : 0 < m)
    (h4 : (modInv m 4).isSome) (bits : List Wire) (st : XZ × XZ)
    (hst : XZwf m st.1 ∧ XZwf m st.2) :
    ∃ st', List.foldlM (ladderStep m pt A) st bits = .ok st' ∧
      XZwf m st'.1 ∧ XZwf m st'.2 := by
  induction bits generalizing st with
  | nil => exact ⟨st, rfl, hst⟩
  | cons b bs ih =>
    obtain ⟨st1, h1, hwf1⟩ := ladderStep_ok m pt A hm h4 st b
    obtain ⟨st', h', hwf'⟩ := ih st1 hwf1
    refine ⟨st', ?_, hwf'⟩
    rw [List.foldlM_cons, h1, exbind_ok, h']

theorem ladder_ok (m : Nat) (kbits : List Wire) (pt : XZ) (A : Wire)
    (hm : 0 < m) (h4 : (modInv m 4).isSome) (hpt : XZwf m pt) :
    ∃ r0 r1, ladder m kbits pt A = .ok (r0, r1) ∧
      XZwf m r0 ∧ XZwf m r1 := by
  obtain ⟨r1, h1, hwf1⟩ := xdbl_ok m pt A hm h4
  obtain ⟨st', h', hwf'⟩ :=
    foldlM_ladderStep_ok m pt A hm h4 kbits.tail (pt, r1) ⟨hpt, hwf1⟩
  refine ⟨st'.1, st'.2, ?_, hwf'.1, hwf'.2⟩
  rw [ladder, h1, exbind_ok, h']

theorem y_recovery_ok (m : Nat) (A B px py : Wire) (q pq : XZ)
    (hp : Nat.Prime m) (hq : XZwf m q) (hpq : XZwf m pq) :
    ∃ pe, y_recovery m A B px py q pq = .ok pe := by
  have hc := eq_zero_ok m q.z hp hq.2
  have hc1 := eq_zero_ok m pq.z hp hpq.2
  obtain ⟨ds, hds, _⟩ := division_safe_ok m q.x q.z hp hq.2
  have hc2 : eq m px ds =
      .ok (gen (if (wsub m px ds).value = 0 then 1 else 0) false) := by
    rw [eq]
    exact eq_zero_ok m _ hp (wsub_lt m hp.pos px ds)
  apply Exists.intro
  rw [y_recovery]
  simp only [hc, hc1, hds, hc2, and_gate_pair, exbind_ok]
  rfl

/-! ### Claim C6: the 2-torsion zero point under exponentiation -/

theorem modInv_isSome (p a : Nat) (hp : Nat.Prime p) (h : ¬ p ∣ a) :
    (modInv p a).isSome := by
  have hco : Nat.Coprime a p := ((hp.coprime_iff_not_dvd).2 h).symm
  obtain ⟨c, hc⟩ := Nat.exists_mul_emod_eq_one_of_coprime hco hp.one_lt
  have hmem : c % p ∈ List.range p := by
    simp [List.mem_range]
    exact Nat.mod_lt _ hp.pos
  have hprop : a * (c % p) % p = 1 := by
    rw [Nat.mul_mod, Nat.mod_mod_of_dvd _ dvd_rfl, ← Nat.mul_mod]
    exact hc
  rw [modInv, List.find?_isSome]
  exact ⟨c % p, hmem, by simpa using hprop⟩

theorem modInv_four_isSome (p : Nat) (hp : Nat.Prime p) (hp2 : p ≠ 2) :
    (modInv p 4).isSome := by
  apply modInv_isSome p 4 hp
  intro hdvd
  have h22 : p ∣ 2 ^ 2 := by norm_num at hdvd ⊢; exact hdvd
  have := hp.dvd_of_dvd_pow h22
  have := (Nat.prime_dvd_prime_iff_eq hp Nat.prime_two).1 this
  exact hp2 this

theorem pyBin_getLast (v : Nat) : (pyBin v).getLast? = some (v % 2) := by
  rw [pyBin_eq]
  by_cases h : v = 0
  · simp [h]
  · rw [if_neg h, List.getLast?_reverse,
      Nat.digits_def' (show (1 : Nat) < 2 by norm_num) (Nat.pos_of_ne_zero h)]
    rfl

theorem getLast?_zfill (L : Nat) (ds : List Nat) (h : ds ≠ []) :
    (zfill L ds).getLast? = ds.getLast? := by
  rw [zfill, List.getLast?_append]
  cases hd : ds.getLast? with
  | none => exact absurd (List.getLast?_eq_none_iff.1 hd) h
  | some d => rfl

theorem pyBin_ne_nil (v : Nat) : pyBin v ≠ [] := by
  have := pyBin_length_pos v
  intro h
  rw [h] at this
  simp at this

/-- The bit-exponent variant on the zero point `(0, 0, 1)`: whatever
the ladder and the y-recovery produced, the final overrides force the
result to `(0, 0, 1)` for an odd parity bit and `(0, 1, 0)` for an
even one. -/
theorem zero_point_bit_exponent (p : Nat) (A B x0 y0 z1 : Wire)
    (ebits : List Wire) (lb : Wire)
    (hp : Nat.Prime p) (hp2 : p ≠ 2)
    (hx : x0.value = 0) (hy : y0.value = 0) (hz : z1.value = 1)
    (hlast : ebits.getLast? = some lb) (hlb : lb.value ≤ 1) :
    ∃ r, exponent_homogeneous_point_bit_exponent p A B ⟨x0, y0, z1⟩ ebits
        = .ok r ∧
      r.x.value = 0 ∧
      r.y.value = (if lb.value = 1 then 0 else 1) ∧
      r.z.value = (if lb.value = 1 then 1 else 0) := by
  have hp0 : 0 < p := hp.pos
  have hp2le : 2 ≤ p := hp.two_le
  have hp2le' : 2 ≤ p := hp.two_le
  have hp3 : 3 ≤ p := by omega
  have h4 := modInv_four_isSome p hp hp2
  obtain ⟨pe0, pe1, hlad, hwf0, hwf1⟩ :=
    ladder_ok p ebits ⟨x0, z1⟩ A hp0 h4
      ⟨by show x0.value < p; omega, by show z1.value < p; omega⟩
  obtain ⟨pe, hyrec⟩ := y_recovery_ok p A B x0 y0 pe0 pe1 hp hwf0 hwf1
  have hInf := eq_zero_ok p pe0.z hp hwf0.2
  have hezx := eq_zero_ok p x0 hp (by omega)
  have hezy := eq_zero_ok p y0 hp (by omega)
  have hezz := eq_zero_ok p z1 hp (by omega)
  rw [hx] at hezx
  rw [hy] at hezy
  rw [hz] at hezz
  norm_num at hezx hezy
  rw [if_neg (by omega : ¬ (1 : Nat) = 0)] at hezz
  -- the three-input AND gate evaluates to 1
  have hand : and_gate p [gen 1 false, gen 1 false,
      waddInt p (wneg p (gen 0 false)) 1] = .ok (gen 1 false) := by
    have hlist : and_gate p [gen 1 false, gen 1 false,
        waddInt p (wneg p (gen 0 false)) 1] =
        eq_zero_multiple p ([gen 1 false, gen 1 false,
          waddInt p (wneg p (gen 0 false)) 1] ++
          [wneg p (gen 3 true)]) := rfl
    rw [hlist, eq_zero_multiple_ok p _ hp]
    have hsum : (pySum p ([gen 1 false, gen 1 false,
        waddInt p (wneg p (gen 0 false)) 1] ++
        [wneg p (gen 3 true)])).value = 0 := by
      rw [pySum_value]
      have h3 : (waddInt p (wneg p (gen 0 false)) 1).value = 1 :=
        one_sub_zero_wire p hp2le _ rfl
      simp only [List.map_append, List.map_cons, List.map_nil,
        List.sum_append, List.sum_cons, List.sum_nil, h3]
      show (1 + (1 + (1 + 0)) + ((p - 3) + 0)) % p = 0
      have : 1 + (1 + (1 + 0)) + ((p - 3) + 0) = p := by omega
      rw [this, Nat.mod_self]
    rw [hsum]
    norm_num
  -- the parity indicator
  have hodd : eq_zero p (wsubInt p lb 1) =
      .ok (gen (if lb.value = 1 then 1 else 0) false) := by
    have hval : (wsubInt p lb 1).value =
        (if lb.value = 1 then 0 else p - 1) := by
      show (lb.value + (p - 1 % p)) % p = _
      rw [Nat.mod_eq_of_lt (by omega : (1 : Nat) < p)]
      rcases Nat.le_one_iff_eq_zero_or_eq_one.1 hlb with h | h
      · rw [h, if_neg (by omega), Nat.zero_add,
          Nat.mod_eq_of_lt (by omega)]
      · rw [h, if_pos rfl]
        have : 1 + (p - 1) = p := by omega
        rw [this, Nat.mod_self]
    rw [eq_zero_ok p _ hp (by rw [hval]; split <;> omega), hval]
    rcases Nat.le_one_iff_eq_zero_or_eq_one.1 hlb with h | h
    · rw [h]
      have h5 : ¬ ((if (0 : Nat) = 1 then (0 : Nat) else p - 1) = 0) := by
        norm_num
        omega
      rw [if_neg h5, if_neg (show ¬ (0 : Nat) = 1 by norm_num)]
    · rw [h]
      norm_num
  apply Exists.intro
  constructor
  · rw [exponent_homogeneous_point_bit_exponent]
    simp only [hlad, exbind_ok, hyrec, hInf, hezx, hezy, hezz, hand,
      hlast, hodd]
    rfl
  · -- value computation for the final overridden coordinates
    have hpex : (if_then_set_zero p (gen (if pe0.z.value = 0 then 1 else 0)
        false) pe.x).value < p := wmul_lt p hp0 _ _
    have hpey : (if_then_else_int p (gen (if pe0.z.value = 0 then 1 else 0)
        false) 1 pe.y).value < p := wadd_lt p hp0 _ _
    have hpez : (if_then_set_zero p (gen (if pe0.z.value = 0 then 1 else 0)
        false) pe.z).value < p := wmul_lt p hp0 _ _
    rcases Nat.le_one_iff_eq_zero_or_eq_one.1 hlb with hd | hd
    · -- even parity: the zero-even override forces (0, 1, 0)
      simp only [hd]
      norm_num
      have hze : (wmul p (gen 1 false)
          (waddInt p (wneg p (gen 0 false)) 1)).value = 1 := by
        have h1 : (waddInt p (wneg p (gen 0 false)) 1).value = 1 :=
          one_sub_zero_wire p hp2le _ rfl
        show 1 * (waddInt p (wneg p (gen 0 false)) 1).value % p = 1
        rw [h1, Nat.one_mul, Nat.mod_eq_of_lt (by omega)]
      refine ⟨?_, ?_, ?_⟩
      · change (if_then_else_int p _ 0 _).value = 0
        rw [itei_one p hp2le _ 0 _ hze, Nat.zero_mod]
      · change (if_then_else_int p _ 1 _).value = 1
        rw [itei_one p hp2le _ 1 _ hze, Nat.mod_eq_of_lt (by omega)]
      · change (if_then_else_int p _ 0 _).value = 0
        rw [itei_one p hp2le _ 0 _ hze, Nat.zero_mod]
    · -- odd parity: the zero-odd override forces (0, 0, 1) and the
      -- zero-even override keeps it
      simp only [hd]
      norm_num
      have hzo : (wmul p (gen 1 false) (gen 1 false)).value = 1 := by
        show 1 * 1 % p = 1
        rw [Nat.one_mul, Nat.mod_eq_of_lt (by omega)]
      have hze : (wmul p (gen 1 false)
          (waddInt p (wneg p (gen 1 false)) 1)).value = 0 := by
        have h1 : (waddInt p (wneg p (gen 1 false)) 1).value = 0 :=
          one_sub_one_wire p (by omega) _ rfl
        show 1 * (waddInt p (wneg p (gen 1 false)) 1).value % p = 0
        rw [h1]
        simp
      have hx1 : (if_then_else_int p (wmul p (gen 1 false) (gen 1 false)) 0
          (if_then_set_zero p (gen (if pe0.z.value = 0 then 1 else 0) false)
            pe.x)).value = 0 := by
        rw [itei_one p hp2le _ 0 _ hzo, Nat.zero_mod]
      have hy1 : (if_then_else_int p (wmul p (gen 1 false) (gen 1 false)) 0
          (if_then_else_int p (gen (if pe0.z.value = 0 then 1 else 0) false)
            1 pe.y)).value = 0 := by
        rw [itei_one p hp2le _ 0 _ hzo, Nat.zero_mod]
      have hz1 : (if_then_else_int p (wmul p (gen 1 false) (gen 1 false)) 1
          (if_then_set_zero p (gen (if pe0.z.value = 0 then 1 else 0) false)
            pe.z)).value = 1 := by
        rw [itei_one p hp2le _ 1 _ hzo, Nat.mod_eq_of_lt (by omega)]
      refine ⟨?_, ?_, ?_⟩
      · change (if_then_else_int p _ 0 _).value = 0
        rw [itei_zero p hp2le _ 0 _ hze (by rw [hx1]; omega), hx1]
      · change (if_then_else_int p _ 1 _).value = 0
        rw [itei_zero p hp2le _ 1 _ hze (by rw [hy1]; omega), hy1]
      · change (if_then_else_int p _ 0 _).value = 1
        rw [itei_zero p hp2le _ 0 _ hze (by rw [hz1]; omega), hz1]

/-- The full `exponent_homogeneous_point` on the zero point: `split`
the exponent (never fails), then the bit-exponent pipeline; the parity
bit is the last entry of the big-endian bit list, `int(e) % 2`. -/
theorem exponent_zero_point_general (p : Nat) (A B x0 y0 z1 ew : Wire)
    (hp : Nat.Prime p) (hp2 : p ≠ 2)
    (hx : x0.value = 0) (hy : y0.value = 0) (hz : z1.value = 1)
    (he : 1 ≤ ew.value) :
    ∃ r, exponent_homogeneous_point p A B ⟨x0, y0, z1⟩ ew = .ok r ∧
      r.x.value = 0 ∧
      r.y.value = (if ew.value % 2 = 1 then 0 else 1) ∧
      r.z.value = (if ew.value % 2 = 1 then 1 else 0) := by
  have hp0 : 0 < p := hp.pos
  have hsplit := split_eq p (by omega) ew (bitLength p)
  have hlast : ((zfill (bitLength p) (pyBin ew.value)).map
      (fun b => gen b false)).getLast? = some (gen (ew.value % 2) false) := by
    rw [List.getLast?_map, getLast?_zfill _ _ (pyBin_ne_nil _),
      pyBin_getLast]
    rfl
  obtain ⟨r, hr, hrx, hry, hrz⟩ :=
    zero_point_bit_exponent p A B x0 y0 z1 _ (gen (ew.value % 2) false)
      hp hp2 hx hy hz hlast (by show ew.value % 2 ≤ 1; omega)
  refine ⟨r, ?_, hrx, hry, hrz⟩
  rw [exponent_homogeneous_point, hsplit, exbind_ok, hr]

/-- C6: for every odd prime modulus, curve parameters `A`, `B`, and
exponent `e ≥ 1`, `exponent_homogeneous_point` on the 2-torsion zero
point `(0, 0, 1)` returns `(0, 0, 1)` when `e` is odd (the parity
being the last bit of the big-endian bit list) and `(0, 1, 0)` when
`e` is even; in particular over `p = 13` with `A = 3`, `B = 1`,
exponent `3` yields `(0, 0, 1)` and exponent `2` yields `(0, 1, 0)`. -/
theorem exponent_zero_point_spec :
    (∀ (p : Nat) (A B x0 y0 z1 ew : Wire), Nat.Prime p → p ≠ 2 →
      x0.value = 0 → y0.value = 0 → z1.value = 1 → 1 ≤ ew.value →
      ∃ r, exponent_homogeneous_point p A B ⟨x0, y0, z1⟩ ew = .ok r ∧
        r.x.value = 0 ∧
        r.y.value = (if ew.value % 2 = 1 then 0 else 1) ∧
        r.z.value = (if ew.value % 2 = 1 then 1 else 0)) ∧
      (∃ r, exponent_homogeneous_point 13 (gen 3 true) (gen 1 true)
          ⟨gen 0 false, gen 0 false, gen 1 false⟩ (gen 3 false) = .ok r ∧
        r.x.value = 0 ∧ r.y.value = 0 ∧ r.z.value = 1) ∧
      (∃ r, exponent_homogeneous_point 13 (gen 3 true) (gen 1 true)
          ⟨gen 0 false, gen 0 false, gen 1 false⟩ (gen 2 false) = .ok r ∧
        r.x.value = 0 ∧ r.y.value = 1 ∧ r.z.value = 0) := by
  refine ⟨fun p A B x0 y0 z1 ew hp hp2 hx hy hz he =>
    exponent_zero_point_general p A B x0 y0 z1 ew hp hp2 hx hy hz he,
    ?_, ?_⟩
  · obtain ⟨r, hr, hrx, hry, hrz⟩ :=
      exponent_zero_point_general 13 (gen 3 true) (gen 1 true)
        (gen 0 false) (gen 0 false) (gen 1 false) (gen 3 false)
        (by norm_num) (by norm_num) rfl rfl rfl (by decide)
    refine ⟨r, hr, hrx, ?_, ?_⟩
    · rw [hry]
      decide
    · rw [hrz]
      decide
  · obtain ⟨r, hr, hrx, hry, hrz⟩ :=
      exponent_zero_point_general 13 (gen 3 true) (gen 1 true)
        (gen 0 false) (gen 0 false) (gen 1 false) (gen 2 false)
        (by norm_num) (by norm_num) rfl rfl rfl (by decide)
    refine ⟨r, hr, hrx, ?_, ?_⟩
    · rw [hry]
      decide
    · rw [hrz]
      decide

/-! ### Claim C8: the IRV election with the first-possibility
eliminator -/

/-- `List.min?` over naturals returns a member below every member. -/
theorem nat_min?_spec (l : List Nat) (a : Nat) (h : l.min? = some a) :
    a ∈ l ∧ ∀ b ∈ l, a ≤ b :=
  (List.min?_eq_some_iff (fun _ => le_refl _) (fun _ _ => min_choice _ _)
    (fun _ _ _ => le_min_iff)).1 h

/-- `assert_gt` succeeds whenever the bits bound holds and the first
raw value is at least the second: the difference splits without error
and the doubling assertion is an identity. -/
theorem assert_gt_ok (m bits : Nat) (a b : Wire) (hm : 1 ≤ m)
    (hbits : bits ≤ bitLength m / 2) (hab : b.value ≤ a.value) :
    assert_gt m a b bits = .ok () := by
  have hnotgt : ¬ bits > bitLength m / 2 := by omega
  rw [assert_gt, if_neg hnotgt, exbind_ok,
    if_pos (show a.value ≥ b.value from hab), exbind_ok]
  simp only [exbind_ok, split_eq m hm]
  have hassert : assert_equal m [wmulInt m (wsub m a b) 2]
      [wadd m (wsub m a b) (gen (wsub m a b).value false)] = .ok () := by
    rw [assert_equal_iff]
    simp only [List.map_cons, List.map_nil, List.sum_cons, List.sum_nil,
      Nat.add_zero]
    simp only [wmulInt, wadd, gen]
    rw [Nat.mod_mod_of_dvd _ dvd_rfl, mul_two,
      Nat.mod_mod_of_dvd _ dvd_rfl]
  rw [hassert, exbind_ok]
  rfl

/-- A `mapM` whose body succeeds pointwise is the corresponding
`map`. -/
theorem mapM_ok_of_ok {α β : Type} (f : α → Res β) (g : α → β)
    (l : List α) (h : ∀ x ∈ l, f x = .ok (g x)) :
    l.mapM f = .ok (l.map g) := by
  induction l with
  | nil => rfl
  | cons a as ih =>
    simp only [List.mapM_cons, h a (by simp), exbind_ok,
      ih (fun x hx => h x (by simp [hx])), List.map_cons]
    rfl

/-- `minimum` succeeds on a nonempty list of reduced values and
returns the minimum indicators. -/
theorem minimum_ok (p bits : Nat) (ws : List Wire) (mv : Nat)
    (hp : Nat.Prime p) (hbits : bits ≤ bitLength p / 2)
    (hlt : ∀ w ∈ ws, w.value < p)
    (hmin : (ws.map Wire.value).min? = some mv) :
    minimum p ws bits =
      .ok (ws.map (fun w => gen (if w.value = mv then 1 else 0) false)) := by
  obtain ⟨hmem, hle⟩ := nat_min?_spec _ _ hmin
  obtain ⟨w0, hw0, hweq⟩ := List.mem_map.1 hmem
  have hmv : mv < p := hweq ▸ hlt w0 hw0
  rw [minimum]
  simp only [hmin, exbind_ok]
  refine mapM_ok_of_ok _ _ ws (fun w hw => ?_)
  have hwp : w.value < p := hlt w hw
  have hmw : (gen mv false).value ≤ w.value :=
    hle w.value (List.mem_map.2 ⟨w, hw, rfl⟩)
  rw [eq_ok p w (gen mv false) hp hwp hmv, exbind_ok,
    assert_gt_ok p bits w (gen mv false) (by omega) hbits hmw, exbind_ok]
  rfl

/-- The `find_first_indicator` fold builds `ffiAux` in reverse onto
the accumulator. -/
theorem ffiAux_snd (m : Nat) (ws : List Wire) :
    ∀ st : Wire × List Wire,
      (ws.foldl (fun st w =>
          let r := wmul m w (waddInt m (wneg m st.1) 1)
          (wadd m st.1 r, r :: st.2)) st).2
        = (ffiAux m st.1 ws).reverse ++ st.2 := by
  induction ws with
  | nil => intro st; simp [ffiAux]
  | cons w ws ih =>
    intro st
    rw [List.foldl_cons, ih]
    simp [ffiAux]

theorem find_first_indicator_eq (m : Nat) (ws : List Wire) :
    find_first_indicator m ws = ffiAux m (gen 0 false) ws := by
  rw [find_first_indicator, ffiAux_snd]
  simp

/-- Once the running `done` wire holds `1`, every further output of
the `find_first_indicator` loop is `0`. -/
theorem ffiAux_done (m : Nat) (hm : 2 ≤ m) (ws : List Wire) :
    ∀ d : Wire, d.value = 1 →
      (ffiAux m d ws).length = ws.length ∧
      ∀ w ∈ ffiAux m d ws, w.value = 0 := by
  induction ws with
  | nil => intro d _; simp [ffiAux]
  | cons w ws ih =>
    intro d hd
    have h1 : (waddInt m (wneg m d) 1).value = 0 :=
      one_sub_one_wire m (by omega) d hd
    have hr : (wmul m w (waddInt m (wneg m d) 1)).value = 0 := by
      simp [wmul, h1]
    have hd' : (wadd m d (wmul m w (waddInt m (wneg m d) 1))).value = 1 := by
      rw [wadd_value, hr, hd]
      exact Nat.mod_eq_of_lt (by omega)
    obtain ⟨hlen, hall⟩ := ih _ hd'
    constructor
    · simp [ffiAux, hlen]
    · intro x hx
      simp only [ffiAux, List.mem_cons] at hx
      rcases hx with hx | hx
      · rw [hx]; exact hr
      · exact hall x hx

/-- With bit inputs whose first `1` sits at position `j`, the
`find_first_indicator` loop started with `done = 0` produces the
one-hot indicator of position `j`. -/
theorem ffiAux_onehot (m : Nat) (hm : 2 ≤ m) (ws : List Wire)
    (h01 : ∀ w ∈ ws, w.value ≤ 1) (j : Nat) (hj : j < ws.length)
    (hone : (ws.getD j (gen 0 false)).value = 1)
    (hfirst : ∀ i, i < j → (ws.getD i (gen 0 false)).value = 0) :
    ∀ d : Wire, d.value = 0 →
      (ffiAux m d ws).length = ws.length ∧
      ∀ i, ((ffiAux m d ws).getD i (gen 0 false)).value =
        if i = j then 1 else 0 := by
  induction ws generalizing j with
  | nil => intro d _; simp at hj
  | cons w ws ih =>
    intro d hd
    have h1 : (waddInt m (wneg m d) 1).value = 1 :=
      one_sub_zero_wire m hm d hd
    have hw1 : w.value ≤ 1 := h01 w (by simp)
    have hr : (wmul m w (waddInt m (wneg m d) 1)).value = w.value := by
      simp only [wmul, h1, mul_one]
      exact Nat.mod_eq_of_lt (by omega)
    cases j with
    | zero =>
      have hw : w.value = 1 := by simpa using hone
      have hd' : (wadd m d (wmul m w (waddInt m (wneg m d) 1))).value = 1 := by
        rw [wadd_value, hr, hd, hw]
        exact Nat.mod_eq_of_lt (by omega)
      obtain ⟨hlen, hall⟩ := ffiAux_done m hm ws _ hd'
      constructor
      · simp [ffiAux, hlen]
      · intro i
        cases i with
        | zero => simpa [ffiAux, hr] using hw
        | succ i =>
          simp only [ffiAux, List.getD_cons_succ]
          rw [if_neg (by omega)]
          by_cases hil : i < (ffiAux m (wadd m d
              (wmul m w (waddInt m (wneg m d) 1))) ws).length
          · rw [List.getD_eq_getElem _ _ hil]
            exact hall _ (List.getElem_mem hil)
          · rw [List.getD_eq_default _ _ (by omega)]
            rfl
    | succ j' =>
      have hw : w.value = 0 := by simpa using hfirst 0 (by omega)
      have hr0 : (wmul m w (waddInt m (wneg m d) 1)).value = 0 := by
        rw [hr, hw]
      have hd' : (wadd m d (wmul m w (waddInt m (wneg m d) 1))).value = 0 := by
        rw [wadd_value, hr0, hd]
        simp
      have hone' : (ws.getD j' (gen 0 false)).value = 1 := by
        simpa using hone
      have hfirst' : ∀ i, i < j' → (ws.getD i (gen 0 false)).value = 0 :=
        fun i hi => by simpa using hfirst (i + 1) (by omega)
      obtain ⟨hlen, hall⟩ := ih (fun x hx => h01 x (by simp [hx])) j'
        (by simpa using hj) hone' hfirst' _ hd'
      constructor
      · simp [ffiAux, hlen]
      · intro i
        cases i with
        | zero => simpa [ffiAux, hr0] using (by omega : ¬ (0 : Nat) = j' + 1)
        | succ i =>
          simp only [ffiAux, List.getD_cons_succ]
          rw [hall i]
          by_cases hij : i = j' <;> simp [hij]

/-- For bit wires, the sum of values counts the `1` entries. -/
theorem sum_values_eq_countP (l : List Wire) (h : ∀ w ∈ l, w.value ≤ 1) :
    (l.map Wire.value).sum = l.countP (fun w => w.value == 1) := by
  induction l with
  | nil => rfl
  | cons w ws ih =>
    have hw := h w (by simp)
    rw [List.map_cons, List.sum_cons,
      ih (fun x hx => h x (by simp [hx])), List.countP_cons]
    interval_cases hv : w.value <;> simp [hv] <;> omega

/-- A list sum rewritten as a sum of `getD` values over the index
range. -/
theorem sum_map_eq_range_getD {α : Type} (g : α → Nat) (d : α) :
    ∀ l : List α,
      (l.map g).sum = ((List.range l.length).map
        (fun i => g (l.getD i d))).sum := by
  intro l
  induction l with
  | nil => rfl
  | cons a as ih =>
    rw [List.map_cons, List.sum_cons, List.length_cons,
      List.range_succ_eq_map, List.map_cons, List.sum_cons,
      List.map_map]
    simp only [List.getD_cons_zero]
    rw [ih]
    have hmaps : List.map (fun i => g (as.getD i d)) (List.range as.length)
        = List.map ((fun i => g ((a :: as).getD i d)) ∘ Nat.succ)
          (List.range as.length) :=
      List.map_congr_left (fun i _ => by simp)
    rw [hmaps]

/-- The sum of a one-hot function over an index range is `1`. -/
theorem range_map_onehot (j : Nat) (f : Nat → Nat)
    (hf : ∀ i, f i = if i = j then 1 else 0) :
    ∀ n : Nat, j < n → ((List.range n).map f).sum = 1 := by
  intro n
  induction n with
  | zero => omega
  | succ n ih =>
    intro hj
    rw [List.range_succ, List.map_append, List.sum_append]
    by_cases hjn : j = n
    · have hzero : ((List.range n).map f).sum = 0 := by
        apply List.sum_eq_zero
        intro x hx
        obtain ⟨i, hi, rfl⟩ := List.mem_map.1 hx
        rw [List.mem_range] at hi
        rw [hf i, if_neg (by omega)]
      simp [hzero, hf n, hjn]
    · have h1 := ih (by omega)
      simp [h1, hf n]
      omega

/-- A bit list of length `n` whose values sum to fewer than `n` has a
zero entry. -/
theorem exists_zero_entry (l : List Wire) (r : Nat)
    (h01 : ∀ w ∈ l, w.value ≤ 1) (hsum : (l.map Wire.value).sum = r)
    (hr : r < l.length) :
    ∃ c, c < l.length ∧ (l.getD c (gen 0 false)).value = 0 := by
  by_contra hno
  push_neg at hno
  have hall : ∀ i, i < l.length → (l.getD i (gen 0 false)).value = 1 := by
    intro i hi
    have h1 : (l.getD i (gen 0 false)).value ≤ 1 := by
      rw [List.getD_eq_getElem _ _ hi]
      exact h01 _ (List.getElem_mem hi)
    have h2 := hno i hi
    omega
  have : (l.map Wire.value).sum = l.length := by
    rw [sum_map_eq_range_getD Wire.value (gen 0 false) l]
    have hcongr : ∀ i ∈ List.range l.length,
        (l.getD i (gen 0 false)).value = 1 := by
      intro i hi
      exact hall i (List.mem_range.1 hi)
    rw [List.map_congr_left hcongr]
    simp [List.map_const]
  omega

/-- A successful lookup returns a stored entry. -/
theorem mgrLookup_mem (mgr : Mgr) (k : List Nat) (w : Wire)
    (h : mgrLookup mgr k = some w) : (k, w) ∈ mgr := by
  induction mgr with
  | nil => simp [mgrLookup] at h
  | cons kv rest ih =>
    by_cases hk : kv.1 = k
    · rw [mgrLookup, if_pos hk] at h
      have : kv = (k, w) := by
        cases kv
        simp_all
      simp [this]
    · rw [mgrLookup, if_neg hk] at h
      exact List.mem_cons_of_mem _ (ih h)

/-- With duplicate-free keys, every stored entry is what lookup
returns. -/
theorem mgrLookup_of_mem (mgr : Mgr) (hnd : (mgr.map Prod.fst).Nodup)
    (kv : List Nat × Wire) (h : kv ∈ mgr) :
    mgrLookup mgr kv.1 = some kv.2 := by
  induction mgr with
  | nil => simp at h
  | cons hd rest ih =>
    rw [List.map_cons, List.nodup_cons] at hnd
    rcases List.mem_cons.1 h with rfl | hmem
    · rw [mgrLookup, if_pos rfl]
    · have hne : hd.1 ≠ kv.1 := by
        intro hcontra
        exact hnd.1 (hcontra ▸ List.mem_map.2 ⟨kv, hmem, rfl⟩)
      rw [mgrLookup, if_neg hne]
      exact ih hnd.2 hmem

/-- `mgrUpdate` does not change the key list. -/
theorem mgrUpdate_map_fst (mgr : Mgr) (k : List Nat) (f : Wire → Wire) :
    (mgrUpdate mgr k f).map Prod.fst = mgr.map Prod.fst := by
  rw [mgrUpdate, List.map_map]
  apply List.map_congr_left
  intro kv _
  by_cases h : kv.1 = k <;> simp [h]

/-- `updateForKey` does not change the key list. -/
theorem updateForKey_map_fst (m n : Nat) (inds : List Wire) (mg : Mgr)
    (k : List Nat) :
    (updateForKey m n inds mg k).map Prod.fst = mg.map Prod.fst := by
  rw [updateForKey]
  generalize List.range n = l
  induction l generalizing mg with
  | nil => rfl
  | cons c cs ih =>
    rw [List.foldl_cons]
    by_cases hc : c ∈ k
    · rw [if_pos hc]
      exact ih mg
    · rw [if_neg hc]
      cases hl : mgrLookup mg (c :: k) with
      | none => exact ih mg
      | some prev => rw [ih _, mgrUpdate_map_fst]

/-- `updateForKey` at key `k` leaves every other key's binding
untouched. -/
theorem updateForKey_lookup_ne (m n : Nat) (inds : List Wire) (mg : Mgr)
    (k k' : List Nat) (h : k' ≠ k) :
    mgrLookup (updateForKey m n inds mg k) k' = mgrLookup mg k' := by
  rw [updateForKey]
  generalize List.range n = l
  induction l generalizing mg with
  | nil => rfl
  | cons c cs ih =>
    rw [List.foldl_cons]
    by_cases hc : c ∈ k
    · rw [if_pos hc]
      exact ih mg
    · rw [if_neg hc]
      cases hl : mgrLookup mg (c :: k) with
      | none => exact ih mg
      | some prev => rw [ih _, mgrLookup_update_ne _ _ _ _ h]

/-- The ballot-count fold continued from an already-found wire adds
the remaining `c`-headed counts modulo `m`. -/
theorem gnb_fold_some (m c : Nat) :
    ∀ (l : Mgr) (w : Wire), w.value < m →
      ∃ w', l.foldl (fun acc kv =>
          match kv.1 with
          | [] => acc
          | h :: _ =>
            if h = c then
              match acc with
              | none => some kv.2
              | some w => some (wadd m w kv.2)
            else acc) (some w) = some w' ∧
        w'.value = (w.value +
          (l.map (fun kv => if headIs c kv.1 then kv.2.value else 0)).sum)
            % m := by
  intro l
  induction l with
  | nil =>
    intro w hw
    exact ⟨w, rfl, by simpa using (Nat.mod_eq_of_lt hw).symm⟩
  | cons kv rest ih =>
    intro w hw
    rw [List.foldl_cons]
    match hkv : kv.1 with
    | [] =>
      obtain ⟨w', hw', hv⟩ := ih w hw
      refine ⟨w', hw', ?_⟩
      rw [hv]
      simp [headIs, hkv]
    | h :: t =>
      by_cases hh : h = c
      · simp only [if_pos hh]
        have hlt : (wadd m w kv.2).value < m := wadd_lt m (by omega) _ _
        obtain ⟨w', hw', hv⟩ := ih (wadd m w kv.2) hlt
        refine ⟨w', hw', ?_⟩
        rw [hv, wadd_value, Nat.mod_add_mod]
        simp only [List.map_cons, List.sum_cons, headIs, hkv, hh,
          beq_self_eq_true, if_true]
        ring_nf
      · simp only [if_neg hh]
        obtain ⟨w', hw', hv⟩ := ih w hw
        refine ⟨w', hw', ?_⟩
        rw [hv]
        have : headIs c kv.1 = false := by
          simp [headIs, hkv, hh]
        simp [this]

/-- `get_n_ballots_with_first_choice` returns the reduced sum of the
`c`-headed counts as soon as one `c`-headed key is stored. -/
theorem gnb_value (m : Nat) (mgr : Mgr) (c : Nat)
    (hvals : ∀ kv ∈ mgr, kv.2.value < m) (hm : 0 < m)
    (hex : ∃ kv ∈ mgr, headIs c kv.1 = true) :
    ∃ w, get_n_ballots_with_first_choice m mgr c = some w ∧
      w.value = headVotes mgr c % m := by
  rw [get_n_ballots_with_first_choice, headVotes]
  induction mgr with
  | nil => simp at hex
  | cons kv rest ih =>
    rw [List.foldl_cons]
    match hkv : kv.1 with
    | [] =>
      have hex' : ∃ kv ∈ rest, headIs c kv.1 = true := by
        obtain ⟨kv', hkv', hhead⟩ := hex
        rcases List.mem_cons.1 hkv' with rfl | hmem
        · rw [hkv] at hhead
          simp [headIs] at hhead
        · exact ⟨kv', hmem, hhead⟩
      obtain ⟨w, hw, hv⟩ := ih (fun x hx => hvals x (by simp [hx])) hex'
      refine ⟨w, hw, ?_⟩
      rw [hv]
      simp [headIs, hkv]
    | h :: t =>
      by_cases hh : h = c
      · simp only [if_pos hh]
        have hlt : kv.2.value < m := hvals kv (by simp)
        obtain ⟨w', hw', hv⟩ := gnb_fold_some m c rest kv.2 hlt
        refine ⟨w', hw', ?_⟩
        rw [hv]
        simp [headIs, hkv, hh]
      · simp only [if_neg hh]
        have hex' : ∃ kv ∈ rest, headIs c kv.1 = true := by
          obtain ⟨kv', hkv', hhead⟩ := hex
          rcases List.mem_cons.1 hkv' with rfl | hmem
          · rw [hkv] at hhead
            simp [headIs, hh] at hhead
          · exact ⟨kv', hmem, hhead⟩
        obtain ⟨w, hw, hv⟩ := ih (fun x hx => hvals x (by simp [hx])) hex'
        refine ⟨w, hw, ?_⟩
        rw [hv]
        have : headIs c kv.1 = false := by
          simp [headIs, hkv, hh]
        simp [this]

/-- `get_votes_per_choice` succeeds on the `init_mapping` key set and
returns, per choice, the reduced `c`-headed count sum. -/
theorem get_votes_ok (m n : Nat) (mgr : Mgr) (hm : 0 < m)
    (hkeys : mgr.map Prod.fst = irvKeys n)
    (hvals : ∀ kv ∈ mgr, kv.2.value < m) :
    ∃ vs, get_votes_per_choice m n mgr = .ok vs ∧
      vs.length = n ∧
      ∀ c, c < n → (vs.getD c (gen 0 false)).value = headVotes mgr c % m := by
  have hex : ∀ c, c < n → ∃ kv ∈ mgr, headIs c kv.1 = true := by
    intro c hc
    have hmemL : [c] ∈ irvKeys n :=
      (mem_irvKeys n [c]).2 ⟨by simp, by simpa⟩
    rw [← hkeys] at hmemL
    obtain ⟨kv, hkv, hfst⟩ := List.mem_map.1 hmemL
    exact ⟨kv, hkv, by rw [hfst]; simp [headIs]⟩
  have hok : ∀ c ∈ List.range n,
      (match get_n_ballots_with_first_choice m mgr c with
        | some w => Except.ok w
        | none => Except.error Err.noneValue) =
      Except.ok ((get_n_ballots_with_first_choice m mgr c).getD
        (gen 0 false)) := by
    intro c hc
    obtain ⟨w, hw, _⟩ := gnb_value m mgr c hvals hm
      (hex c (List.mem_range.1 hc))
    rw [hw]
    rfl
  rw [get_votes_per_choice, mapM_ok_of_ok _ _ _ hok]
  refine ⟨_, rfl, by simp, ?_⟩
  intro c hc
  rw [List.getD_eq_getElem _ _ (by simpa using hc)]
  simp only [List.getElem_map, List.getElem_range]
  obtain ⟨w, hw, hwv⟩ := gnb_value m mgr c hvals hm (hex c hc)
  rw [hw]
  exact hwv

/-- The per-key update fold of `update_votes_on_elimination`: with a
one-hot indicator at `cstar`, the value stored under `k` gains exactly
the current value under `cstar :: k` when `cstar ∉ k`, and is otherwise
re-stored unchanged; all additions by a zero indicator are value
no-ops. -/
theorem ufk_fold (m : Nat) (hm : 1 ≤ m) (inds : List Wire) (cstar : Nat)
    (hinds : ∀ c, (inds.getD c (gen 0 false)).value =
      if c = cstar then 1 else 0)
    (k : List Nat) :
    ∀ l : List Nat, l.Nodup →
    ∀ (mg : Mgr) (w : Wire), mgrLookup mg k = some w → w.value < m →
      (∀ v, mgrLookup mg (cstar :: k) = some v → v.value < m) →
      (mgrLookup (l.foldl (fun mg c =>
          if c ∈ k then mg
          else
            match mgrLookup mg (c :: k) with
            | none => mg
            | some prev =>
              mgrUpdate mg k
                (fun cur => wadd m cur
                  (wmul m (inds.getD c (gen 0 false)) prev))) mg) k).map
          Wire.value
        = some ((w.value +
            (if cstar ∈ l ∧ cstar ∉ k then mgrVal mg (cstar :: k) else 0))
              % m) := by
  intro l
  induction l with
  | nil =>
    intro _ mg w hk hw _
    simp only [List.foldl_nil, hk, Option.map_some']
    rw [if_neg (by simp), Nat.add_zero, Nat.mod_eq_of_lt hw]
  | cons c cs ih =>
    intro hnd mg w hk hw hsub
    rw [List.nodup_cons] at hnd
    rw [List.foldl_cons]
    by_cases hck : c ∈ k
    · rw [if_pos hck, ih hnd.2 mg w hk hw hsub]
      by_cases hcc : c = cstar
      · subst hcc
        rw [if_neg (fun h => h.2 hck), if_neg (fun h => h.2 hck)]
      · have hiff : (cstar ∈ cs ∧ cstar ∉ k) ↔
            (cstar ∈ c :: cs ∧ cstar ∉ k) :=
          ⟨fun h => ⟨List.mem_cons_of_mem _ h.1, h.2⟩,
           fun h => ⟨(List.mem_cons.1 h.1).resolve_left
             (fun he => hcc he.symm), h.2⟩⟩
        rw [if_congr hiff rfl rfl]
    · simp only [if_neg hck]
      cases hl : mgrLookup mg (c :: k) with
      | none =>
        simp only [hl]
        rw [ih hnd.2 mg w hk hw hsub]
        by_cases hcc : c = cstar
        · subst hcc
          have h0 : mgrVal mg (c :: k) = 0 := by
            rw [mgrVal, hl]
            rfl
          rw [if_neg (fun h => hnd.1 h.1), if_pos ⟨by simp, hck⟩, h0]
        · have hiff : (cstar ∈ cs ∧ cstar ∉ k) ↔
              (cstar ∈ c :: cs ∧ cstar ∉ k) :=
            ⟨fun h => ⟨List.mem_cons_of_mem _ h.1, h.2⟩,
             fun h => ⟨(List.mem_cons.1 h.1).resolve_left
               (fun he => hcc he.symm), h.2⟩⟩
          rw [if_congr hiff rfl rfl]
      | some prev =>
        simp only [hl]
        have hkne : (c :: k) ≠ k := by
          intro h
          simpa using congrArg List.length h
        have hlk' : mgrLookup (mgrUpdate mg k
            (fun cur => wadd m cur
              (wmul m (inds.getD c (gen 0 false)) prev))) k =
            some (wadd m w
              (wmul m (inds.getD c (gen 0 false)) prev)) := by
          rw [mgrLookup_update_self, hk]
          rfl
        have hlkc : ∀ t : Nat, mgrLookup (mgrUpdate mg k
            (fun cur => wadd m cur
              (wmul m (inds.getD c (gen 0 false)) prev))) (t :: k) =
            mgrLookup mg (t :: k) := by
          intro t
          apply mgrLookup_update_ne
          intro h
          simpa using congrArg List.length h
        by_cases hcc : c = cstar
        · subst hcc
          have hprev : prev.value < m := hsub prev hl
          have hwv : (wadd m w
              (wmul m (inds.getD c (gen 0 false)) prev)).value =
              (w.value + prev.value) % m := by
            rw [wadd_value]
            have : (wmul m (inds.getD c (gen 0 false)) prev).value =
                prev.value := by
              show (inds.getD c (gen 0 false)).value * prev.value % m =
                prev.value
              rw [hinds c, if_pos rfl, one_mul, Nat.mod_eq_of_lt hprev]
            rw [this]
          have hwlt : (wadd m w
              (wmul m (inds.getD c (gen 0 false)) prev)).value < m :=
            wadd_lt m (by omega) _ _
          rw [ih hnd.2 _ _ hlk' hwlt
            (fun v hv => hsub v ((hlkc c).symm ▸ hv))]
          rw [if_neg (fun h => hnd.1 h.1), if_pos ⟨by simp, hck⟩]
          rw [Nat.add_zero, Nat.mod_eq_of_lt hwlt, hwv]
          have hval : mgrVal mg (c :: k) = prev.value := by
            rw [mgrVal, hl]
            rfl
          rw [hval]
        · have hwv : (wadd m w
              (wmul m (inds.getD c (gen 0 false)) prev)).value =
              w.value := by
            rw [wadd_value]
            have : (wmul m (inds.getD c (gen 0 false)) prev).value = 0 := by
              show (inds.getD c (gen 0 false)).value * prev.value % m = 0
              rw [hinds c, if_neg hcc, zero_mul, Nat.zero_mod]
            rw [this, Nat.add_zero, Nat.mod_eq_of_lt hw]
          have hwlt : (wadd m w
              (wmul m (inds.getD c (gen 0 false)) prev)).value < m := by
            rw [hwv]
            exact hw
          rw [ih hnd.2 _ _ hlk' hwlt
            (fun v hv => hsub v ((hlkc cstar).symm ▸ hv))]
          rw [hwv]
          have hiff : (cstar ∈ cs ∧ cstar ∉ k) ↔
              (cstar ∈ c :: cs ∧ cstar ∉ k) :=
            ⟨fun h => ⟨List.mem_cons_of_mem _ h.1, h.2⟩,
             fun h => ⟨(List.mem_cons.1 h.1).resolve_left
               (fun he => hcc he.symm), h.2⟩⟩
          have hvaleq : mgrVal (mgrUpdate mg k
              (fun cur => wadd m cur
                (wmul m (inds.getD c (gen 0 false)) prev))) (cstar :: k) =
              mgrVal mg (cstar :: k) := by
            rw [mgrVal, hlkc cstar, mgrVal]
          rw [hvaleq, if_congr hiff rfl rfl]

/-- The redistribution pass over a duplicate-free key list: every
processed key `k` ends at
`(old value of k + old value of cstar :: k) mod m` (the addition being
skipped when `cstar ∈ k`), keys headed by `cstar` keep their values,
and keys, value bounds and untouched keys are preserved. -/
theorem pass_aux (m n : Nat) (hm : 1 ≤ m) (inds : List Wire) (cstar : Nat)
    (hinds : ∀ c, (inds.getD c (gen 0 false)).value =
      if c = cstar then 1 else 0)
    (hcn : cstar < n) (mgr : Mgr) :
    ∀ todo : List (List Nat), todo.Nodup →
      (∀ k ∈ todo, k ∈ mgr.map Prod.fst) →
      ∀ mg : Mgr, mg.map Prod.fst = mgr.map Prod.fst →
        (∀ k w, mgrLookup mg k = some w → w.value < m) →
        (∀ k ∈ todo, mgrVal mg k = mgrVal mgr k) →
        (∀ t : List Nat, mgrVal mg (cstar :: t) = mgrVal mgr (cstar :: t)) →
        ((todo.foldl (updateForKey m n inds) mg).map Prod.fst
            = mgr.map Prod.fst) ∧
          (∀ k w,
            mgrLookup (todo.foldl (updateForKey m n inds) mg) k = some w →
              w.value < m) ∧
          (∀ k ∈ todo, mgrVal (todo.foldl (updateForKey m n inds) mg) k =
            (mgrVal mgr k +
              (if cstar ∈ k then 0 else mgrVal mgr (cstar :: k))) % m) ∧
          (∀ k, k ∉ todo →
            mgrVal (todo.foldl (updateForKey m n inds) mg) k =
              mgrVal mg k) := by
  intro todo
  induction todo with
  | nil =>
    intro _ _ mg hfst hbound _ _
    exact ⟨hfst, hbound, by simp, fun k _ => rfl⟩
  | cons k0 todo ih =>
    intro hnd htodo mg hfst hbound hold hstar
    rw [List.nodup_cons] at hnd
    rw [List.foldl_cons]
    -- the binding stored under k0 before its update
    have hk0dom : k0 ∈ mg.map Prod.fst := by
      rw [hfst]
      exact htodo k0 (by simp)
    obtain ⟨w0, hlk0⟩ := Option.isSome_iff_exists.1
      ((mgrLookup_isSome_iff mg k0).2 hk0dom)
    have hw0 : w0.value < m := hbound k0 w0 hlk0
    have hval0 : mgrVal mg k0 = w0.value := by
      rw [mgrVal, hlk0]
      rfl
    -- the single-key update
    have hufk := ufk_fold m hm inds cstar hinds k0 (List.range n)
      (List.nodup_range n) mg w0 hlk0 hw0
      (fun v hv => hbound _ v hv)
    have hufk' : (mgrLookup (updateForKey m n inds mg k0) k0).map Wire.value
        = some ((w0.value +
            (if cstar ∈ List.range n ∧ cstar ∉ k0
             then mgrVal mg (cstar :: k0) else 0)) % m) := hufk
    have hrange : (cstar ∈ List.range n ∧ cstar ∉ k0) ↔ (cstar ∉ k0) :=
      ⟨fun h => h.2, fun h => ⟨List.mem_range.2 hcn, h⟩⟩
    have hnewval : mgrVal (updateForKey m n inds mg k0) k0 =
        (mgrVal mgr k0 +
          (if cstar ∈ k0 then 0 else mgrVal mgr (cstar :: k0))) % m := by
      rw [mgrVal]
      rw [hufk', Option.getD_some]
      rw [if_congr hrange rfl rfl]
      rw [← hval0, hold k0 (by simp), hstar k0]
      by_cases hsk : cstar ∈ k0
      · rw [if_neg (fun h => h hsk), if_pos hsk]
      · rw [if_pos hsk, if_neg hsk]
    -- properties of the updated manager
    have hfst1 : (updateForKey m n inds mg k0).map Prod.fst =
        mgr.map Prod.fst := by
      rw [updateForKey_map_fst, hfst]
    have hbound1 : ∀ k w,
        mgrLookup (updateForKey m n inds mg k0) k = some w →
          w.value < m := by
      intro k w hw
      by_cases hkk : k = k0
      · subst hkk
        have : (mgrLookup (updateForKey m n inds mg k) k).map Wire.value
            = some ((w0.value +
                (if cstar ∈ List.range n ∧ cstar ∉ k
                 then mgrVal mg (cstar :: k) else 0)) % m) := hufk'
        rw [hw] at this
        simp only [Option.map_some', Option.some.injEq] at this
        rw [this]
        exact Nat.mod_lt _ (by omega)
      · rw [updateForKey_lookup_ne m n inds mg k0 k hkk] at hw
        exact hbound k w hw
    have hold1 : ∀ k ∈ todo, mgrVal (updateForKey m n inds mg k0) k =
        mgrVal mgr k := by
      intro k hk
      have hkk : k ≠ k0 := fun h => hnd.1 (h ▸ hk)
      rw [mgrVal, updateForKey_lookup_ne m n inds mg k0 k hkk, ← mgrVal]
      exact hold k (by simp [hk])
    have hstar1 : ∀ t : List Nat,
        mgrVal (updateForKey m n inds mg k0) (cstar :: t) =
          mgrVal mgr (cstar :: t) := by
      intro t
      by_cases hkk : (cstar :: t) = k0
      · have hin : cstar ∈ k0 := by
          rw [← hkk]
          simp
        rw [hkk, hnewval, if_pos hin, Nat.add_zero]
        have hlt : mgrVal mgr k0 < m := by
          rw [← hold k0 (by simp), hval0]
          exact hw0
        rw [Nat.mod_eq_of_lt hlt]
      · rw [mgrVal, updateForKey_lookup_ne m n inds mg k0 _ hkk, ← mgrVal]
        exact hstar t
    obtain ⟨hfstF, hboundF, hformF, hkeepF⟩ := ih hnd.2
      (fun k hk => htodo k (by simp [hk])) (updateForKey m n inds mg k0)
      hfst1 hbound1 hold1 hstar1
    refine ⟨hfstF, hboundF, ?_, ?_⟩
    · intro k hk
      rcases List.mem_cons.1 hk with rfl | hk
      · rw [hkeepF k hnd.1, hnewval]
      · exact hformF k hk
    · intro k hk
      have hk0ne : k ≠ k0 := fun h => hk (by simp [h])
      rw [hkeepF k (fun h => hk (by simp [h])), mgrVal,
        updateForKey_lookup_ne m n inds mg k0 k hk0ne, ← mgrVal]

/-- Per-length arrangement lists are duplicate-free. -/
theorem arrangements_nodup (n i : Nat) : (arrangements n i).Nodup := by
  rw [arrangements, List.nodup_flatMap]
  refine ⟨?_, ?_⟩
  · intro s hs
    rw [List.mem_sublistsLen] at hs
    have hnd : s.Nodup := hs.1.nodup (List.nodup_range n)
    exact (List.permutations_perm_permutations' s).nodup_iff.1
      (List.nodup_permutations s hnd)
  · have hnd : (List.sublistsLen i (List.range n)).Nodup :=
      List.nodup_sublistsLen i (List.nodup_range n)
    refine List.Pairwise.imp_of_mem ?_ hnd
    intro s1 s2 hs1 hs2 hne
    rw [List.mem_sublistsLen] at hs1 hs2
    intro o ho1 ho2
    rw [List.mem_permutations'] at ho1 ho2
    exact hne (List.eq_of_perm_of_sorted (ho1.symm.trans ho2)
      ((List.sorted_le_range n).sublist hs1.1)
      ((List.sorted_le_range n).sublist hs2.1))

/-- The `init_mapping` key list never stores a key twice. -/
theorem irvKeys_nodup (n : Nat) : (irvKeys n).Nodup := by
  rw [irvKeys]
  apply List.Nodup.append
  · rw [List.nodup_flatMap]
    refine ⟨fun i _ => arrangements_nodup n i, ?_⟩
    have hnd : ((List.range (n + 1)).reverse.map (· + 1)).Nodup := by
      refine List.Nodup.map ?_ (List.nodup_reverse.2 (List.nodup_range _))
      intro a b h
      simp only [] at h
      omega
    refine List.Pairwise.imp_of_mem ?_ hnd
    intro i j _ _ hne o ho1 ho2
    have h1 := ((mem_arrangements n i o).1 ho1).2.2
    have h2 := ((mem_arrangements n j o).1 ho2).2.2
    exact hne (by omega)
  · simp
  · intro o ho hmem
    rw [List.mem_flatMap] at ho
    obtain ⟨i, hi, hio⟩ := ho
    have hlen := ((mem_arrangements n i o).1 hio).2.2
    rw [List.mem_map] at hi
    obtain ⟨j, _, rfl⟩ := hi
    simp only [List.mem_singleton] at hmem
    subst hmem
    simp at hlen

/-- `update_votes_on_elimination` with a one-hot indicator at `cstar`:
keys are preserved, stored values stay reduced, and every key `k`
ends at `(old k + old (cstar :: k)) mod m`, the addition being skipped
for keys containing `cstar`. -/
theorem pass_values (m n : Nat) (hm : 1 ≤ m) (inds : List Wire)
    (cstar : Nat)
    (hinds : ∀ c, (inds.getD c (gen 0 false)).value =
      if c = cstar then 1 else 0)
    (hcn : cstar < n) (mgr : Mgr)
    (hnd : (mgr.map Prod.fst).Nodup)
    (hvals : ∀ kv ∈ mgr, kv.2.value < m) :
    ((update_votes_on_elimination m n mgr inds).map Prod.fst
        = mgr.map Prod.fst) ∧
      (∀ kv ∈ update_votes_on_elimination m n mgr inds, kv.2.value < m) ∧
      (∀ k ∈ mgr.map Prod.fst,
        mgrVal (update_votes_on_elimination m n mgr inds) k =
          (mgrVal mgr k +
            (if cstar ∈ k then 0 else mgrVal mgr (cstar :: k))) % m) := by
  have hbound : ∀ k w, mgrLookup mgr k = some w → w.value < m :=
    fun k w hw => hvals (k, w) (mgrLookup_mem mgr k w hw)
  obtain ⟨hfst, hboundF, hform, _⟩ := pass_aux m n hm inds cstar hinds hcn
    mgr (mgr.map Prod.fst) hnd (fun k hk => hk) mgr rfl hbound
    (fun k _ => rfl) (fun t => rfl)
  have hfst' : (update_votes_on_elimination m n mgr inds).map Prod.fst
      = mgr.map Prod.fst := hfst
  have hboundF' : ∀ k w,
      mgrLookup (update_votes_on_elimination m n mgr inds) k = some w →
        w.value < m := hboundF
  have hform' : ∀ k ∈ mgr.map Prod.fst,
      mgrVal (update_votes_on_elimination m n mgr inds) k =
        (mgrVal mgr k +
          (if cstar ∈ k then 0 else mgrVal mgr (cstar :: k))) % m := hform
  refine ⟨hfst', ?_, hform'⟩
  intro kv hkv
  have hndF : ((update_votes_on_elimination m n mgr inds).map
      Prod.fst).Nodup := by
    rw [hfst']
    exact hnd
  exact hboundF' kv.1 kv.2
    (mgrLookup_of_mem (update_votes_on_elimination m n mgr inds) hndF kv hkv)

/-- An entry-wise sum over a manager with duplicate-free keys is the
same sum over its key list with looked-up values. -/
theorem mgr_sum_eq_keys_sum (mgr : Mgr) (g : List Nat → Nat → Nat) :
    (mgr.map Prod.fst).Nodup →
      (mgr.map (fun kv => g kv.1 kv.2.value)).sum =
        ((mgr.map Prod.fst).map (fun k => g k (mgrVal mgr k))).sum := by
  induction mgr with
  | nil => intro _; rfl
  | cons kv rest ih =>
    intro hnd
    rw [List.map_cons, List.nodup_cons] at hnd
    rw [List.map_cons, List.sum_cons, List.map_cons, List.map_cons,
      List.sum_cons]
    have hhead : mgrVal (kv :: rest) kv.1 = kv.2.value := by
      rw [mgrVal]
      have hstep : mgrLookup (kv :: rest) kv.1 = some kv.2 := by
        show (if kv.1 = kv.1 then some kv.2 else mgrLookup rest kv.1)
          = some kv.2
        rw [if_pos rfl]
      rw [hstep]
      rfl
    rw [hhead]
    congr 1
    rw [ih hnd.2]
    congr 1
    apply List.map_congr_left
    intro k hk
    have hne : kv.1 ≠ k := fun h => hnd.1 (h ▸ hk)
    have hstep : mgrLookup (kv :: rest) k = mgrLookup rest k := by
      show (if kv.1 = k then some kv.2 else mgrLookup rest k)
        = mgrLookup rest k
      rw [if_neg hne]
    have hval : mgrVal (kv :: rest) k = mgrVal rest k := by
      rw [mgrVal, hstep, mgrVal]
    rw [hval]

theorem liveSum_eq_keys (mgr : Mgr) (elim : List Wire)
    (hnd : (mgr.map Prod.fst).Nodup) :
    liveSum elim mgr = ((mgr.map Prod.fst).map
      (fun k => if liveKey elim k then mgrVal mgr k else 0)).sum :=
  mgr_sum_eq_keys_sum mgr (fun k v => if liveKey elim k then v else 0) hnd

theorem headVotes_eq_keys (mgr : Mgr) (c : Nat)
    (hnd : (mgr.map Prod.fst).Nodup) :
    headVotes mgr c = ((mgr.map Prod.fst).map
      (fun k => if headIs c k then mgrVal mgr k else 0)).sum :=
  mgr_sum_eq_keys_sum mgr (fun k v => if headIs c k then v else 0) hnd

theorem mgrVal_eq_zero_of_not_mem (mgr : Mgr) (k : List Nat)
    (h : k ∉ mgr.map Prod.fst) : mgrVal mgr k = 0 := by
  rw [mgrVal]
  cases hl : mgrLookup mgr k with
  | none => rfl
  | some w =>
    exact absurd ((mgrLookup_isSome_iff mgr k).1 (by simp [hl])) h

/-- With a live head, a key's current count is bounded by the live
total. -/
theorem mgrVal_le_liveSum (mgr : Mgr) (elim : List Wire)
    (hnd : (mgr.map Prod.fst).Nodup) (k : List Nat)
    (hlk : liveKey elim k = true) :
    mgrVal mgr k ≤ liveSum elim mgr := by
  by_cases hdom : k ∈ mgr.map Prod.fst
  · rw [liveSum_eq_keys mgr elim hnd,
      ← List.sum_toFinset _ hnd]
    have hsingle : ({k} : Finset (List Nat)) ⊆
        (mgr.map Prod.fst).toFinset := by
      intro x hx
      rw [Finset.mem_singleton] at hx
      rw [List.mem_toFinset]
      exact hx ▸ hdom
    calc mgrVal mgr k
        = ({k} : Finset (List Nat)).sum
            (fun x => if liveKey elim x then mgrVal mgr x else 0) := by
          rw [Finset.sum_singleton, if_pos hlk]
      _ ≤ _ := Finset.sum_le_sum_of_subset hsingle
  · rw [mgrVal_eq_zero_of_not_mem mgr k hdom]
    exact Nat.zero_le _

/-- Two live keys, one the `cstar`-extension of the other, jointly
hold at most the live total. -/
theorem mgrVal_pair_le_liveSum (mgr : Mgr) (elim : List Wire)
    (hnd : (mgr.map Prod.fst).Nodup) (cstar : Nat) (k : List Nat)
    (hlk : liveKey elim k = true)
    (hlc : liveKey elim (cstar :: k) = true) :
    mgrVal mgr k + mgrVal mgr (cstar :: k) ≤ liveSum elim mgr := by
  by_cases hdomc : (cstar :: k) ∈ mgr.map Prod.fst
  · by_cases hdom : k ∈ mgr.map Prod.fst
    · rw [liveSum_eq_keys mgr elim hnd, ← List.sum_toFinset _ hnd]
      have hne : k ≠ cstar :: k := by
        intro h
        simpa using congrArg List.length h
      have hpair : ({k, cstar :: k} : Finset (List Nat)) ⊆
          (mgr.map Prod.fst).toFinset := by
        intro x hx
        rw [Finset.mem_insert, Finset.mem_singleton] at hx
        rw [List.mem_toFinset]
        rcases hx with rfl | rfl
        · exact hdom
        · exact hdomc
      calc mgrVal mgr k + mgrVal mgr (cstar :: k)
          = ({k, cstar :: k} : Finset (List Nat)).sum
              (fun x => if liveKey elim x then mgrVal mgr x else 0) := by
            rw [Finset.sum_pair hne, if_pos hlk, if_pos hlc]
        _ ≤ _ := Finset.sum_le_sum_of_subset hpair
    · rw [mgrVal_eq_zero_of_not_mem mgr k hdom, Nat.zero_add]
      exact mgrVal_le_liveSum mgr elim hnd _ hlc
  · rw [mgrVal_eq_zero_of_not_mem mgr _ hdomc, Nat.add_zero]
    exact mgrVal_le_liveSum mgr elim hnd _ hlk

/-- The current first-choice count of a live choice is bounded by the
live total. -/
theorem headVotes_le_liveSum (mgr : Mgr) (elim : List Wire) (c : Nat)
    (hnd : (mgr.map Prod.fst).Nodup)
    (he : (elim.getD c (gen 0 false)).value = 0) :
    headVotes mgr c ≤ liveSum elim mgr := by
  rw [headVotes, liveSum]
  apply List.sum_le_sum
  intro kv _
  match hkv : kv.1 with
  | [] => simp [headIs]
  | h :: t =>
    by_cases hh : h = c
    · subst hh
      have hlive : liveKey elim (h :: t) = true := by
        show ((elim.getD h (gen 0 false)).value == 0) = true
        rw [he]
        rfl
      simp [headIs, hlive]
    · have : headIs c (h :: t) = false := by
        simp [headIs, hh]
      simp [this]

/-- After the redistribution pass triggered by eliminating `cstar`,
the ballots under keys that remain live never exceed the previous live
total: every live key gains at most the old count of its
`cstar`-extension, those extensions are pairwise distinct `cstar`-headed
keys, and all `cstar`-headed counts leave the live pool. -/
theorem liveSum_pass_le (m T : Nat) (mgr mgr' : Mgr)
    (elim elim' : List Wire) (cstar : Nat)
    (hnd : (mgr.map Prod.fst).Nodup)
    (hfst : mgr'.map Prod.fst = mgr.map Prod.fst)
    (hval' : ∀ k ∈ mgr.map Prod.fst, mgrVal mgr' k =
      (mgrVal mgr k +
        (if cstar ∈ k then 0 else mgrVal mgr (cstar :: k))) % m)
    (hT : liveSum elim mgr ≤ T) (hTm : T < m)
    (ha : ∀ t : List Nat, liveKey elim' (cstar :: t) = false)
    (hb : ∀ k : List Nat, liveKey elim' k = true → liveKey elim k = true)
    (hc : ∀ t : List Nat, liveKey elim (cstar :: t) = true) :
    liveSum elim' mgr' ≤ liveSum elim mgr := by
  classical
  have hnd' : (mgr'.map Prod.fst).Nodup := by
    rw [hfst]
    exact hnd
  have hdomK : ∀ y : List Nat, mgrVal mgr y ≠ 0 →
      y ∈ (mgr.map Prod.fst).toFinset := by
    intro y hy
    rw [List.mem_toFinset, ← mgrLookup_isSome_iff]
    by_contra hnone
    rw [Option.not_isSome_iff_eq_none] at hnone
    exact hy (by rw [mgrVal, hnone]; rfl)
  have h1 : liveSum elim' mgr' =
      ((mgr.map Prod.fst).toFinset).sum
        (fun k => if liveKey elim' k then mgrVal mgr' k else 0) := by
    rw [liveSum_eq_keys mgr' elim' hnd', hfst, ← List.sum_toFinset _ hnd]
  have h0 : liveSum elim mgr =
      ((mgr.map Prod.fst).toFinset).sum
        (fun k => if liveKey elim k then mgrVal mgr k else 0) := by
    rw [liveSum_eq_keys mgr elim hnd, ← List.sum_toFinset _ hnd]
  have hnowrap : ∀ k, k ∈ (mgr.map Prod.fst).toFinset →
      liveKey elim' k = true →
      mgrVal mgr k +
        (if cstar ∈ k then 0 else mgrVal mgr (cstar :: k)) < m := by
    intro k _ hlk'
    have hlk : liveKey elim k = true := hb k hlk'
    by_cases hck : cstar ∈ k
    · rw [if_pos hck, Nat.add_zero]
      exact lt_of_le_of_lt
        (le_trans (mgrVal_le_liveSum mgr elim hnd k hlk) hT) hTm
    · rw [if_neg hck]
      exact lt_of_le_of_lt
        (le_trans (mgrVal_pair_le_liveSum mgr elim hnd cstar k hlk (hc k))
          hT) hTm
  have h2 : ((mgr.map Prod.fst).toFinset).sum
        (fun k => if liveKey elim' k then mgrVal mgr' k else 0)
      = ((mgr.map Prod.fst).toFinset).sum
          (fun k => (if liveKey elim' k then mgrVal mgr k else 0)
            + (if liveKey elim' k then
                (if cstar ∈ k then 0 else mgrVal mgr (cstar :: k))
              else 0)) := by
    apply Finset.sum_congr rfl
    intro k hkK
    by_cases hlk' : liveKey elim' k = true
    · rw [if_pos hlk', if_pos hlk', if_pos hlk',
        hval' k (List.mem_toFinset.1 hkK),
        Nat.mod_eq_of_lt (hnowrap k hkK hlk')]
    · rw [if_neg hlk', if_neg hlk', if_neg hlk']
  have h3 : ((mgr.map Prod.fst).toFinset).sum
        (fun k => if liveKey elim' k then
          (if cstar ∈ k then 0 else mgrVal mgr (cstar :: k)) else 0)
      ≤ ((mgr.map Prod.fst).toFinset).sum
          (fun k => if headIs cstar k then mgrVal mgr k else 0) := by
    have hstep1 : ((mgr.map Prod.fst).toFinset).sum
          (fun k => if liveKey elim' k then
            (if cstar ∈ k then 0 else mgrVal mgr (cstar :: k)) else 0)
        = (((mgr.map Prod.fst).toFinset).filter
            (fun k => liveKey elim' k = true ∧ cstar ∉ k)).sum
              (fun k => mgrVal mgr (cstar :: k)) := by
      rw [Finset.sum_filter]
      apply Finset.sum_congr rfl
      intro k _
      by_cases hlk' : liveKey elim' k = true
      · by_cases hck : cstar ∈ k
        · simp [hlk', hck]
        · simp [hlk', hck]
      · simp [hlk']
    rw [hstep1]
    have hinj : ∀ x ∈ ((mgr.map Prod.fst).toFinset).filter
        (fun k => liveKey elim' k = true ∧ cstar ∉ k),
        ∀ y ∈ ((mgr.map Prod.fst).toFinset).filter
          (fun k => liveKey elim' k = true ∧ cstar ∉ k),
          (fun k => cstar :: k) x = (fun k => cstar :: k) y → x = y := by
      intro x _ y _ h
      simpa using h
    rw [← Finset.sum_image hinj]
    have himg : ∀ y ∈ (((mgr.map Prod.fst).toFinset).filter
        (fun k => liveKey elim' k = true ∧ cstar ∉ k)).image
          (fun k => cstar :: k),
        mgrVal mgr y ≠ 0 →
          y ∈ ((mgr.map Prod.fst).toFinset).filter
            (fun k => headIs cstar k = true) := by
      intro y hy hyv
      rw [Finset.mem_image] at hy
      obtain ⟨x, _, rfl⟩ := hy
      rw [Finset.mem_filter]
      exact ⟨hdomK _ hyv, by simp [headIs]⟩
    calc ((((mgr.map Prod.fst).toFinset).filter
          (fun k => liveKey elim' k = true ∧ cstar ∉ k)).image
            (fun k => cstar :: k)).sum (fun y => mgrVal mgr y)
        ≤ (((mgr.map Prod.fst).toFinset).filter
            (fun k => headIs cstar k = true)).sum (fun y => mgrVal mgr y) :=
          Finset.sum_le_sum_of_ne_zero himg
      _ = ((mgr.map Prod.fst).toFinset).sum
            (fun k => if headIs cstar k then mgrVal mgr k else 0) := by
          rw [Finset.sum_filter]
  have h4 : ((mgr.map Prod.fst).toFinset).sum
        (fun k => if liveKey elim' k then mgrVal mgr k else 0)
      + ((mgr.map Prod.fst).toFinset).sum
          (fun k => if headIs cstar k then mgrVal mgr k else 0)
      ≤ ((mgr.map Prod.fst).toFinset).sum
          (fun k => if liveKey elim k then mgrVal mgr k else 0) := by
    rw [← Finset.sum_add_distrib]
    apply Finset.sum_le_sum
    intro k _
    cases k with
    | nil =>
      have : headIs cstar ([] : List Nat) = false := rfl
      have hl' : liveKey elim' ([] : List Nat) = false := rfl
      have hl : liveKey elim ([] : List Nat) = false := rfl
      simp [this, hl', hl]
    | cons h t =>
      by_cases hh : h = cstar
      · subst hh
        rw [if_neg (by simp [ha t]), if_pos (by simp [headIs]),
          if_pos (hc t)]
        simp
      · have hhead : headIs cstar (h :: t) = false := by
          simp [headIs, hh]
        rw [hhead]
        by_cases hlk' : liveKey elim' (h :: t) = true
        · rw [if_pos hlk', if_pos (hb _ hlk')]
          simp
        · rw [if_neg hlk']
          simp
  rw [h1, h0, h2, Finset.sum_add_distrib]
  exact le_trans (Nat.add_le_add_left h3 _) h4

theorem getD_zipWith (f : Wire → Wire → Wire) (l1 l2 : List Wire)
    (c : Nat) (hc1 : c < l1.length) (hc2 : c < l2.length) :
    (List.zipWith f l1 l2).getD c (gen 0 false)
      = f (l1.getD c (gen 0 false)) (l2.getD c (gen 0 false)) := by
  rw [List.getD_eq_getElem _ _ (by rw [List.length_zipWith]; omega),
    List.getElem_zipWith, List.getD_eq_getElem _ _ hc1,
    List.getD_eq_getElem _ _ hc2]

theorem sum_map_add {α : Type} (l : List α) (f g : α → Nat) :
    (l.map (fun x => f x + g x)).sum = (l.map f).sum + (l.map g).sum := by
  induction l with
  | nil => rfl
  | cons a as ih =>
    simp only [List.map_cons, List.sum_cons, ih]
    omega

/-- One IRV round with the first-possibility eliminator succeeds and
preserves the invariant, raising the eliminated count by one. -/
theorem evaluate_round_ok (p n bits T r : Nat) (hp : Nat.Prime p)
    (hbits : bits ≤ bitLength p / 2) (hT : T + 1 < p) (hrn : r < n)
    (st : Mgr × List Wire) (hinv : IRVInv p n T r st) :
    ∃ st', evaluate_round p n bits st = .ok st' ∧
      IRVInv p n T (r + 1) st' := by
  obtain ⟨mgr, elim⟩ := st
  have hkeys : mgr.map Prod.fst = irvKeys n := hinv.1
  have hvals : ∀ kv ∈ mgr, kv.2.value < p := hinv.2.1
  have hlen : elim.length = n := hinv.2.2.1
  have h01 : ∀ w ∈ elim, w.value ≤ 1 := hinv.2.2.2.1
  have hsum : (elim.map Wire.value).sum = r := hinv.2.2.2.2.1
  have hlive : liveSum elim mgr ≤ T := hinv.2.2.2.2.2
  have hp0 : 0 < p := hp.pos
  have hp2 : 2 ≤ p := hp.two_le
  have hnd : (mgr.map Prod.fst).Nodup := by
    rw [hkeys]
    exact irvKeys_nodup n
  have h01getD : ∀ c, c < n → (elim.getD c (gen 0 false)).value ≤ 1 := by
    intro c hc
    rw [List.getD_eq_getElem _ _ (by omega)]
    exact h01 _ (List.getElem_mem _)
  -- votes per choice
  obtain ⟨vs, hvs, hvslen, hvsval⟩ := get_votes_ok p n mgr hp0 hkeys hvals
  have hvslt : ∀ c, c < n → (vs.getD c (gen 0 false)).value < p := by
    intro c hc
    rw [hvsval c hc]
    exact Nat.mod_lt _ hp0
  -- a live choice exists
  obtain ⟨c0, hc0n', hc0z⟩ := exists_zero_entry elim r h01 hsum (by omega)
  have hc0n : c0 < n := by omega
  have hv_c0 : headVotes mgr c0 ≤ T :=
    le_trans (headVotes_le_liveSum mgr elim c0 hnd hc0z) hlive
  -- the masked vote list
  set ms := List.zipWith
    (fun nv e => wsub p (wmul p nv (waddInt p (wneg p e) 1)) e) vs elim
    with hms
  have hmslen : ms.length = n := by
    rw [hms, List.length_zipWith, hvslen, hlen]
    omega
  have hmask : ∀ c, c < n →
      (ms.getD c (gen 0 false)).value =
        if (elim.getD c (gen 0 false)).value = 1 then p - 1
        else (vs.getD c (gen 0 false)).value := by
    intro c hc
    rw [hms, getD_zipWith _ vs elim c (by omega) (by omega)]
    have he1 : (elim.getD c (gen 0 false)).value ≤ 1 := h01getD c hc
    by_cases he : (elim.getD c (gen 0 false)).value = 1
    · rw [if_pos he]
      show ((wmul p (vs.getD c (gen 0 false))
          (waddInt p (wneg p (elim.getD c (gen 0 false))) 1)).value +
          (p - (elim.getD c (gen 0 false)).value)) % p = p - 1
      have hw1 : (waddInt p (wneg p (elim.getD c (gen 0 false))) 1).value
          = 0 := by
        show (p - (elim.getD c (gen 0 false)).value + 1) % p = 0
        rw [he, Nat.sub_add_cancel (by omega), Nat.mod_self]
      have hw2 : (wmul p (vs.getD c (gen 0 false))
          (waddInt p (wneg p (elim.getD c (gen 0 false))) 1)).value = 0 := by
        show (vs.getD c (gen 0 false)).value *
          (waddInt p (wneg p (elim.getD c (gen 0 false))) 1).value % p = 0
        rw [hw1, Nat.mul_zero, Nat.zero_mod]
      rw [hw2, he, Nat.zero_add, Nat.mod_eq_of_lt (by omega)]
    · have he0 : (elim.getD c (gen 0 false)).value = 0 := by omega
      rw [if_neg he]
      show ((wmul p (vs.getD c (gen 0 false))
          (waddInt p (wneg p (elim.getD c (gen 0 false))) 1)).value +
          (p - (elim.getD c (gen 0 false)).value)) % p
        = (vs.getD c (gen 0 false)).value
      have hw1 : (waddInt p (wneg p (elim.getD c (gen 0 false))) 1).value
          = 1 := by
        show (p - (elim.getD c (gen 0 false)).value + 1) % p = 1
        rw [he0, Nat.sub_zero]
        have hsplit : p + 1 = p * 1 + 1 := by omega
        rw [hsplit, Nat.mul_add_mod]
        exact Nat.mod_eq_of_lt (by omega)
      have hw2 : (wmul p (vs.getD c (gen 0 false))
          (waddInt p (wneg p (elim.getD c (gen 0 false))) 1)).value
          = (vs.getD c (gen 0 false)).value := by
        show (vs.getD c (gen 0 false)).value *
          (waddInt p (wneg p (elim.getD c (gen 0 false))) 1).value % p
          = (vs.getD c (gen 0 false)).value
        rw [hw1, Nat.mul_one]
        exact Nat.mod_eq_of_lt (hvslt c hc)
      rw [hw2, he0, Nat.sub_zero, Nat.add_mod_right]
      exact Nat.mod_eq_of_lt (hvslt c hc)
  have hmsval : ∀ w ∈ ms, w.value < p := by
    intro w hw
    rw [hms] at hw
    obtain ⟨i, hi, hieq⟩ := List.mem_iff_getElem.1 hw
    rw [List.getElem_zipWith] at hieq
    rw [← hieq]
    exact wsub_lt p hp0 _ _
  -- the minimum of the masked votes
  obtain ⟨mv, hmv⟩ : ∃ mv, (ms.map Wire.value).min? = some mv := by
    cases hmin : (ms.map Wire.value).min? with
    | none =>
      rw [List.min?_eq_none_iff, List.map_eq_nil_iff] at hmin
      rw [hmin] at hmslen
      simp at hmslen
      omega
    | some v => exact ⟨v, rfl⟩
  obtain ⟨hmv_mem, hmv_le⟩ := nat_min?_spec _ _ hmv
  have hgetD_mem : ∀ c, c < n →
      (ms.getD c (gen 0 false)).value ∈ ms.map Wire.value := by
    intro c hc
    rw [List.getD_eq_getElem _ _ (by omega)]
    exact List.mem_map.2 ⟨_, List.getElem_mem _, rfl⟩
  have hvotes_c0 : (vs.getD c0 (gen 0 false)).value = headVotes mgr c0 := by
    rw [hvsval c0 hc0n, Nat.mod_eq_of_lt (by omega)]
  have hms_c0 : (ms.getD c0 (gen 0 false)).value = headVotes mgr c0 := by
    rw [hmask c0 hc0n, if_neg (by rw [hc0z]; omega), hvotes_c0]
  have hmvT : mv ≤ T := by
    have := hmv_le _ (hgetD_mem c0 hc0n)
    omega
  -- the minimum indicators
  have hmin_ok := minimum_ok p bits ms mv hp hbits hmsval hmv
  set inds0 := ms.map (fun w => gen (if w.value = mv then 1 else 0) false)
    with hinds0
  have hinds0len : inds0.length = n := by
    rw [hinds0, List.length_map, hmslen]
  have hinds0getD : ∀ i, i < n → (inds0.getD i (gen 0 false))
      = gen (if (ms.getD i (gen 0 false)).value = mv then 1 else 0)
        false := by
    intro i hi
    have h2 : i < ms.length := by omega
    rw [hinds0, List.getD_eq_getElem?_getD, List.getElem?_map,
      List.getElem?_eq_getElem h2]
    simp only [Option.map_some', Option.getD_some]
    rw [List.getD_eq_getElem _ _ h2]
  -- the first minimal index
  have hex : ∃ i, i < n ∧ (ms.getD i (gen 0 false)).value = mv := by
    obtain ⟨w, hwmem, hwv⟩ := List.mem_map.1 hmv_mem
    obtain ⟨i, hi, hieq⟩ := List.mem_iff_getElem.1 hwmem
    refine ⟨i, by omega, ?_⟩
    rw [List.getD_eq_getElem _ _ hi, hieq, hwv]
  obtain ⟨hjn, hjmv⟩ := Nat.find_spec hex
  have hjfirst := fun i (hi : i < Nat.find hex) => Nat.find_min hex hi
  -- find_first_indicator is the one-hot vector of the first minimum
  have h01ind : ∀ w ∈ inds0, w.value ≤ 1 := by
    intro w hw
    rw [hinds0] at hw
    obtain ⟨x, _, rfl⟩ := List.mem_map.1 hw
    by_cases h : x.value = mv <;> simp [gen, h]
  have honeind : (inds0.getD (Nat.find hex) (gen 0 false)).value = 1 := by
    rw [hinds0getD _ hjn, if_pos hjmv]
    rfl
  have hfirstind : ∀ i, i < Nat.find hex →
      (inds0.getD i (gen 0 false)).value = 0 := by
    intro i hi
    have hin : i < n := by omega
    have hne := hjfirst i hi
    rw [hinds0getD i hin, if_neg (fun h => hne ⟨hin, h⟩)]
    rfl
  obtain ⟨hffilen, hffione⟩ := ffiAux_onehot p hp2 inds0 h01ind
    (Nat.find hex) (by omega) honeind hfirstind (gen 0 false) rfl
  have hIlen : (find_first_indicator p inds0).length = n := by
    rw [find_first_indicator_eq, hffilen, hinds0len]
  have hIgetD : ∀ i, ((find_first_indicator p inds0).getD i
      (gen 0 false)).value = if i = Nat.find hex then 1 else 0 := by
    intro i
    rw [find_first_indicator_eq]
    exact hffione i
  -- the newly eliminated choice was live
  have hjlive : (elim.getD (Nat.find hex) (gen 0 false)).value = 0 := by
    have h1 := h01getD _ hjn
    by_contra hne
    have he1 : (elim.getD (Nat.find hex) (gen 0 false)).value = 1 := by
      omega
    have := hmask _ hjn
    rw [if_pos he1, hjmv] at this
    omega
  -- the updated elimination indicators
  set elim' := List.zipWith (wadd p) elim (find_first_indicator p inds0)
    with helim'
  have hlen' : elim'.length = n := by
    rw [helim', List.length_zipWith, hlen, hIlen]
    omega
  have hgetD' : ∀ c, c < n → (elim'.getD c (gen 0 false)).value =
      (elim.getD c (gen 0 false)).value +
        (if c = Nat.find hex then 1 else 0) := by
    intro c hc
    rw [helim', getD_zipWith _ elim _ c (by omega) (by omega), wadd_value,
      hIgetD c]
    by_cases hcj : c = Nat.find hex
    · rw [if_pos hcj, hcj, hjlive]
      exact Nat.mod_eq_of_lt (by omega)
    · rw [if_neg hcj, Nat.add_zero]
      exact Nat.mod_eq_of_lt (by have := h01getD c hc; omega)
  have h01' : ∀ w ∈ elim', w.value ≤ 1 := by
    intro w hw
    obtain ⟨i, hi, hieq⟩ := List.mem_iff_getElem.1 hw
    have hin : i < n := by omega
    have := hgetD' i hin
    rw [List.getD_eq_getElem _ _ (by omega)] at this
    rw [← hieq]
    by_cases hij : i = Nat.find hex
    · rw [this, if_pos hij, hij, hjlive]
    · rw [this, if_neg hij, Nat.add_zero]
      exact h01getD i hin
  have hsum' : (elim'.map Wire.value).sum = r + 1 := by
    rw [sum_map_eq_range_getD Wire.value (gen 0 false) elim', hlen']
    have hcongr : ∀ i ∈ List.range n,
        (elim'.getD i (gen 0 false)).value =
          (elim.getD i (gen 0 false)).value +
            (if i = Nat.find hex then 1 else 0) := by
      intro i hi
      exact hgetD' i (List.mem_range.1 hi)
    rw [List.map_congr_left hcongr, sum_map_add]
    have hsum0 : ((List.range n).map
        (fun i => (elim.getD i (gen 0 false)).value)).sum = r := by
      rw [← hlen, ← sum_map_eq_range_getD Wire.value (gen 0 false) elim,
        hsum]
    rw [hsum0, range_map_onehot (Nat.find hex) _ (fun i => rfl) n hjn]
  -- the redistribution pass
  obtain ⟨hfst', hvals', hform'⟩ := pass_values p n (by omega)
    (find_first_indicator p inds0) (Nat.find hex) hIgetD hjn mgr hnd hvals
  -- the live total does not grow
  have hlive' : liveSum elim'
      (update_votes_on_elimination p n mgr (find_first_indicator p inds0))
      ≤ T := by
    refine le_trans (liveSum_pass_le p T mgr _ elim elim' (Nat.find hex)
      hnd hfst' hform' hlive (by omega) ?_ ?_ ?_) hlive
    · intro t
      show ((elim'.getD (Nat.find hex) (gen 0 false)).value == 0) = false
      rw [hgetD' _ hjn, if_pos rfl]
      simp
    · intro k hk
      cases k with
      | nil => exact hk
      | cons h t =>
        show ((elim.getD h (gen 0 false)).value == 0) = true
        have hk' : ((elim'.getD h (gen 0 false)).value == 0) = true := hk
        rw [beq_iff_eq] at hk' ⊢
        by_cases hhn : h < n
        · have := hgetD' h hhn
          omega
        · rw [List.getD_eq_default _ _ (by omega)]
          rfl
    · intro t
      show ((elim.getD (Nat.find hex) (gen 0 false)).value == 0) = true
      rw [hjlive]
      rfl
  -- assemble the round
  refine ⟨(update_votes_on_elimination p n mgr
      (find_first_indicator p inds0), elim'), ?_, ?_⟩
  · rw [evaluate_round]
    show (get_votes_per_choice p n mgr >>= fun votes =>
      eliminate_first_possibility p bits elim votes >>= fun inds =>
      pure (update_votes_on_elimination p n mgr inds,
        List.zipWith (wadd p) elim inds)) = _
    rw [hvs, exbind_ok]
    have helimok : eliminate_first_possibility p bits elim vs =
        .ok (find_first_indicator p inds0) := by
      rw [eliminate_first_possibility, compute_min, ← hms, hmin_ok]
      simp only [exbind_ok]
      rfl
    rw [helimok, exbind_ok, helim']
    rfl
  · exact ⟨by rw [hfst', hkeys], hvals', hlen', h01', hsum', hlive'⟩

/-- Bit wires are counted either as zeros or as ones. -/
theorem countP_bits_split (l : List Wire) (h : ∀ w ∈ l, w.value ≤ 1) :
    l.countP (fun w => w.value == 0) + l.countP (fun w => w.value == 1)
      = l.length := by
  induction l with
  | nil => rfl
  | cons w ws ih =>
    have hw := h w (by simp)
    rw [List.countP_cons, List.countP_cons, List.length_cons,
      ← ih (fun x hx => h x (by simp [hx]))]
    interval_cases hv : w.value <;> simp <;> omega

/-- The round loop of `evaluate_election` preserves the invariant,
adding one eliminated choice per round. -/
theorem electionLoop_ok (p n bits T : Nat) (hp : Nat.Prime p)
    (hbits : bits ≤ bitLength p / 2) (hT : T + 1 < p) :
    ∀ (rounds r : Nat) (st : Mgr × List Wire), IRVInv p n T r st →
      r + rounds ≤ n →
      ∃ st', electionLoop p n bits rounds st = .ok st' ∧
        IRVInv p n T (r + rounds) st' := by
  intro rounds
  induction rounds with
  | zero =>
    intro r st hinv _
    exact ⟨st, rfl, hinv⟩
  | succ rounds ih =>
    intro r st hinv hle
    obtain ⟨st1, h1, hinv1⟩ := evaluate_round_ok p n bits T r hp hbits hT
      (by omega) st hinv
    obtain ⟨st2, h2, hinv2⟩ := ih (r + 1) st1 hinv1 (by omega)
    refine ⟨st2, ?_, ?_⟩
    · show (evaluate_round p n bits st >>= fun st =>
        electionLoop p n bits rounds st) = .ok st2
      rw [h1]
      simp only [exbind_ok]
      exact h2
    · have heq : r + (rounds + 1) = r + 1 + rounds := by omega
      rw [heq]
      exact hinv2

/-- `evaluate_election` with the first-possibility eliminator on a
well-formed bounded election: it succeeds, and the final indicator
list has one bit per choice with exactly `nRounds` ones; when
`nRounds = n - 1` the winner is the unique zero. -/
theorem evaluate_election_ok (p n bits : Nat) (mgr : Mgr)
    (nRounds : Nat) (hp : Nat.Prime p) (hn : 1 ≤ n)
    (hbits : bits ≤ bitLength p / 2)
    (hkeys : mgr.map Prod.fst = irvKeys n)
    (hvals : ∀ kv ∈ mgr, kv.2.value < p)
    (hT : liveSum (List.replicate n (gen 0 false)) mgr + 1 < p)
    (hr : nRounds ≤ n) :
    ∃ el, evaluate_election p n bits mgr nRounds = .ok el ∧
      el.length = n ∧ (∀ w ∈ el, w.value ≤ 1) ∧
      el.countP (fun w => w.value == 1) = nRounds ∧
      (nRounds = n - 1 → el.countP (fun w => w.value == 0) = 1) := by
  have hinv0 : IRVInv p n (liveSum (List.replicate n (gen 0 false)) mgr) 0
      (mgr, List.replicate n (gen 0 false)) := by
    refine ⟨hkeys, hvals, by simp, ?_, ?_, le_rfl⟩
    · intro w hw
      rw [List.eq_of_mem_replicate hw]
      decide
    · simp [gen]
  obtain ⟨st', hloop, hinv'⟩ := electionLoop_ok p n bits
    (liveSum (List.replicate n (gen 0 false)) mgr) hp hbits hT nRounds 0 _
    hinv0 (by omega)
  have hlen' : st'.2.length = n := hinv'.2.2.1
  have h01' : ∀ w ∈ st'.2, w.value ≤ 1 := hinv'.2.2.2.1
  have hsum' : (st'.2.map Wire.value).sum = 0 + nRounds := hinv'.2.2.2.2.1
  have hcount1 : st'.2.countP (fun w => w.value == 1) = nRounds := by
    have := sum_values_eq_countP st'.2 h01'
    omega
  refine ⟨st'.2, ?_, hlen', h01', hcount1, ?_⟩
  · rw [evaluate_election, hloop]
    simp only [exbind_ok]
    rfl
  · intro hnr
    have hsplit := countP_bits_split st'.2 h01'
    omega

/-- C6 witness: the general part instantiated over `p = 11` with
exponent `5`. -/
theorem exponent_zero_point_spec_witness :
    ∃ r, exponent_homogeneous_point 11 (gen 2 false) (gen 1 false)
        ⟨gen 0 false, gen 0 false, gen 1 false⟩ (gen 5 false) = .ok r ∧
      r.x.value = 0 ∧
      r.y.value = (if (gen 5 false).value % 2 = 1 then 0 else 1) ∧
      r.z.value = (if (gen 5 false).value % 2 = 1 then 1 else 0) :=
  exponent_zero_point_spec.1 11 (gen 2 false) (gen 1 false)
    (gen 0 false) (gen 0 false) (gen 1 false) (gen 5 false)
    (by norm_num) (by norm_num) rfl rfl rfl (by decide)

/-- C8: for every IRV election over a prime-modulus group evaluated
with `IRV.evaluate_election` and the first-possibility eliminator —
the ballot manager carrying the `init_mapping` key set with reduced
counts whose live total `T` satisfies `T + 1 < p`, the comparison
width within the group bound, and at most `n_choices` rounds — the
returned elimination indicator list has one bit per choice with
exactly `n_rounds` entries equal to `1`, and when
`n_rounds = n_choices - 1` a unique entry equal to `0` (the winner);
in particular the 3-choice election with ballot counts
`{[0,1,2]: 3, [1,2,0]: 2, [2,1,0]: 1}` over modulus `11` with two
rounds returns the indicators `[1, 0, 1]`. -/
theorem irv_election_spec :
    (∀ (p n bits : Nat) (mgr : Mgr) (nRounds : Nat), Nat.Prime p →
      1 ≤ n → bits ≤ bitLength p / 2 → mgr.map Prod.fst = irvKeys n →
      (∀ kv ∈ mgr, kv.2.value < p) →
      liveSum (List.replicate n (gen 0 false)) mgr + 1 < p →
      nRounds ≤ n →
      ∃ el, evaluate_election p n bits mgr nRounds = .ok el ∧
        el.length = n ∧ (∀ w ∈ el, w.value ≤ 1) ∧
        el.countP (fun w => w.value == 1) = nRounds ∧
        (nRounds = n - 1 →
          el.countP (fun w => w.value == 0) = 1)) ∧
      (do
        let mg ← add_votes_for_ordering 11 (initManager 3) [0, 1, 2]
          (gen 3 false)
        let mg ← add_votes_for_ordering 11 mg [1, 2, 0] (gen 2 false)
        let mg ← add_votes_for_ordering 11 mg [2, 1, 0] (gen 1 false)
        let el ← evaluate_election 11 3 2 mg 2
        pure (el.map Wire.value) : Res (List Nat)) = .ok [1, 0, 1] := by
  refine ⟨fun p n bits mgr nRounds hp hn hbits hkeys hvals hT hr =>
    evaluate_election_ok p n bits mgr nRounds hp hn hbits hkeys hvals
      hT hr, ?_⟩
  rfl

/-- C8 witness: the general part instantiated on the empty three-choice
manager over modulus `11` with two rounds. -/
theorem irv_election_spec_witness :
    ∃ el, evaluate_election 11 3 2 (initManager 3) 2 = .ok el ∧
      el.length = 3 ∧ (∀ w ∈ el, w.value ≤ 1) ∧
      el.countP (fun w => w.value == 1) = 2 ∧
      (2 = 3 - 1 → el.countP (fun w => w.value == 0) = 1) :=
  irv_election_spec.1 11 3 2 (initManager 3) 2 (by norm_num) (by norm_num)
    (by decide) (by decide) (by decide) (by decide) (by norm_num)

end Kryvos
